import Mathlib

/-!
Shallow embedding of the shuffle4g database assembly engine
(src/shuffle4g/core.py and src/shuffle4g/utils.py) and proofs about it.

Modelling conventions:
* A Python `str` is a `List Char` (Unicode code points), called `Str` below.
* Bytes (`bytes`) are `List Nat`, each element the byte value.
* The host platform is POSIX: `os.path.sep = '/'`.  All path-manipulating
  functions (`os.path.join`, `os.path.normpath`, ...) are translated for that
  case.  `os.path.abspath` is modelled as `normpath` (the cwd-join branch for
  relative inputs is not modelled; every theorem applies it to absolute paths).
* Code that raises an exception is modelled with `Except Unit`.
-/

namespace Shuffle4g

/-- Python `str`, as a list of Unicode code points. -/
abbrev Str := List Char

/-! ### Elementary string helpers (Python built-ins used by the source) -/

/-- ASCII lowercasing of one character.  Python `str.lower` also maps a few
non-ASCII code points (e.g. U+212A) but none of those can produce the ASCII
extension strings the source compares against. -/
def pyLowerChar (c : Char) : Char :=
  if 'A' ≤ c ∧ c ≤ 'Z' then Char.ofNat (c.toNat + 32) else c

/-- Python `str.lower`, ASCII fragment. -/
def pyLower (s : Str) : Str := s.map pyLowerChar

/-- Strict lexicographic comparison of strings by code point, Python `<`. -/
def strLt : Str → Str → Bool
  | [], [] => false
  | [], _ :: _ => true
  | _ :: _, [] => false
  | a :: as, b :: bs =>
    if a.toNat < b.toNat then true
    else if b.toNat < a.toNat then false
    else strLt as bs

/-- Insert `x` in front of the first element `y` with `le x y`; used to model
Python's stable `sorted`. -/
def insertStable {α : Type} (le : α → α → Bool) (x : α) : List α → List α
  | [] => [x]
  | y :: ys => if le x y then x :: y :: ys else y :: insertStable le x ys

/-- Stable insertion sort; with `le x y = ¬(key y < key x)` this computes the
same permutation as Python's stable `sorted(..., key=...)`. -/
def insSort {α : Type} (le : α → α → Bool) : List α → List α
  | [] => []
  | x :: xs => insertStable le x (insSort le xs)

theorem mem_insertStable {α : Type} (le : α → α → Bool) (x a : α) :
    ∀ l : List α, (a ∈ insertStable le x l ↔ a = x ∨ a ∈ l)
  | [] => by simp [insertStable]
  | y :: ys => by
    simp only [insertStable]
    by_cases h : le x y = true
    · simp [h]
    · simp only [if_neg h, List.mem_cons, mem_insertStable le x a ys]
      tauto

theorem mem_insSort {α : Type} (le : α → α → Bool) (a : α) :
    ∀ l : List α, (a ∈ insSort le l ↔ a ∈ l)
  | [] => Iff.rfl
  | x :: xs => by
    simp only [insSort, mem_insertStable, List.mem_cons, mem_insSort le a xs]

/-- Python `s.split(sep)` for a one-character separator. -/
def pySplitChar (sep : Char) : Str → List Str
  | [] => [[]]
  | c :: rest =>
    if c = sep then [] :: pySplitChar sep rest
    else
      match pySplitChar sep rest with
      | [] => [[c]]
      | g :: gs => (c :: g) :: gs

theorem pySplitChar_ne_nil (sep : Char) : ∀ s : Str, pySplitChar sep s ≠ []
  | [] => by simp [pySplitChar]
  | c :: rest => by
    simp only [pySplitChar]
    by_cases h : c = sep
    · simp [h]
    · simp only [if_neg h]
      cases hs : pySplitChar sep rest with
      | nil => simp
      | cons g gs => simp

/-- Python `sep.join(parts)` for a one-character separator. -/
def pyIntercalate (sep : Char) : List Str → Str
  | [] => []
  | [c] => c
  | c :: cs => c ++ sep :: pyIntercalate sep cs

/-- `sep.join(s.split(sep)) = s`. -/
theorem join_split (sep : Char) : ∀ s : Str, pyIntercalate sep (pySplitChar sep s) = s
  | [] => rfl
  | c :: rest => by
    simp only [pySplitChar]
    by_cases h : c = sep
    · subst h
      simp only [if_pos rfl]
      cases hs : pySplitChar c rest with
      | nil => exact absurd hs (pySplitChar_ne_nil c rest)
      | cons g gs =>
        have ih := join_split c rest
        rw [hs] at ih
        simpa [pyIntercalate] using ih
    · simp only [if_neg h]
      cases hs : pySplitChar sep rest with
      | nil => exact absurd hs (pySplitChar_ne_nil sep rest)
      | cons g gs =>
        have ih := join_split sep rest
        rw [hs] at ih
        cases gs with
        | nil => simpa [pyIntercalate] using congrArg (c :: ·) ih
        | cons g2 gs2 => simpa [pyIntercalate] using congrArg (c :: ·) ih

theorem pySplitChar_append_sep (sep : Char) (ys : Str) :
    ∀ xs : Str, pySplitChar sep (xs ++ sep :: ys) = pySplitChar sep xs ++ pySplitChar sep ys
  | [] => by simp [pySplitChar]
  | c :: rest => by
    simp only [List.cons_append, pySplitChar]
    by_cases h : c = sep
    · simp [h, pySplitChar_append_sep sep ys rest]
    · cases hs : pySplitChar sep rest with
      | nil => exact absurd hs (pySplitChar_ne_nil sep rest)
      | cons g gs =>
        simp [if_neg h, pySplitChar_append_sep sep ys rest, hs]

theorem pySplitChar_no_sep (sep : Char) : ∀ s : Str, sep ∉ s → pySplitChar sep s = [s]
  | [], _ => rfl
  | c :: rest, h => by
    have hc : ¬ c = sep := fun he => h (he ▸ List.mem_cons_self c rest)
    have hr : sep ∉ rest := fun hm => h (List.mem_cons_of_mem c hm)
    simp only [pySplitChar, if_neg hc, pySplitChar_no_sep sep rest hr]

/-- Python `needle in hay` (substring containment). -/
def strContains : Str → Str → Bool
  | [], needle => needle.isEmpty
  | h :: t, needle => needle.isPrefixOf (h :: t) || strContains t needle

/-- Last index of a character in a string (`str.rfind` when present). -/
def lastIdxOf (c : Char) : Str → Option Nat
  | [] => none
  | x :: xs =>
    match lastIdxOf c xs with
    | some i => some (i + 1)
    | none => if x = c then some 0 else none

/-- `os.path.splitext` (posix): split off the extension at the last dot, except
when the basename up to that dot consists only of dots. -/
def splitext (p : Str) : Str × Str :=
  let sepIdx : Int := match lastIdxOf '/' p with | some i => (i : Int) | none => -1
  let dotIdx : Int := match lastIdxOf '.' p with | some i => (i : Int) | none => -1
  if sepIdx < dotIdx then
    let nameStart := (sepIdx + 1).toNat
    let mid := (List.range (dotIdx.toNat - nameStart)).map (fun k => p.getD (nameStart + k) '.')
    if mid.all (· = '.') then (p, [])
    else (p.take dotIdx.toNat, p.drop dotIdx.toNat)
  else (p, [])

/-- `os.path.basename` (posix). -/
def pyBasename (p : Str) : Str :=
  match lastIdxOf '/' p with
  | some i => p.drop (i + 1)
  | none => p

/-- `os.path.dirname` (posix). -/
def pyDirname (p : Str) : Str :=
  let i := match lastIdxOf '/' p with | some j => j + 1 | none => 0
  let head := p.take i
  if head ≠ [] ∧ ¬ head.all (· = '/') then (head.reverse.dropWhile (· = '/')).reverse
  else head

/-- ASCII whitespace recognized by Python `str.strip`. -/
def isPyWs (c : Char) : Bool :=
  c = ' ' ∨ c = '\t' ∨ c = '\n' ∨ c = '\r' ∨ c.toNat = 11 ∨ c.toNat = 12

/-- Python `str.strip()` (ASCII whitespace fragment). -/
def pyStrip (s : Str) : Str :=
  ((s.dropWhile isPyWs).reverse.dropWhile isPyWs).reverse

/-- Python `s.split(sep, 1)` for a one-character separator. -/
def pySplit1 (sep : Char) : Str → List Str
  | [] => [[]]
  | c :: rest =>
    if c = sep then [[], rest]
    else
      match pySplit1 sep rest with
      | [] => [[c]]
      | a :: bs => (c :: a) :: bs

/-- Decimal digit value. -/
def digitVal (c : Char) : Option Nat :=
  if '0' ≤ c ∧ c ≤ '9' then some (c.toNat - 48) else none

/-- Shape check for the digit part of a Python integer literal: nonempty ASCII
digits with single underscores strictly between digits.  (Python `int` also
accepts non-ASCII decimal digits; not modelled.) -/
def validDigitRun (s : Str) : Bool :=
  (match s.head? with | some c => (digitVal c).isSome | none => false) &&
  (match s.getLast? with | some c => (digitVal c).isSome | none => false) &&
  s.all (fun c => c = '_' || (digitVal c).isSome) &&
  !(strContains s ['_', '_'])

/-- Value of a valid digit run. -/
def digitRunVal (s : Str) : Nat :=
  (s.filter (· ≠ '_')).foldl (fun n c => n * 10 + (c.toNat - 48)) 0

/-- Python `int(s)`; `none` models a raised `ValueError`. -/
def pyIntOfStr (s : Str) : Option Int :=
  match pyStrip s with
  | '+' :: r => if validDigitRun r then some (digitRunVal r) else none
  | '-' :: r => if validDigitRun r then some (-(digitRunVal r : Int)) else none
  | r => if validDigitRun r then some (digitRunVal r) else none

/-- Hexadecimal digit value. -/
def hexVal (c : Char) : Option Nat :=
  if '0' ≤ c ∧ c ≤ '9' then some (c.toNat - 48)
  else if 'a' ≤ c ∧ c ≤ 'f' then some (c.toNat - 87)
  else if 'A' ≤ c ∧ c ≤ 'F' then some (c.toNat - 55)
  else none

/-- `urllib.parse.unquote`, byte-level: each `%XX` escape becomes the code
point `XX`.  (Python additionally recombines multi-byte UTF-8 escape runs; the
theorems below never depend on escapes beyond this fragment.) -/
def unquote : Str → Str
  | [] => []
  | '%' :: h1 :: h2 :: rest =>
    match hexVal h1, hexVal h2 with
    | some a, some b => Char.ofNat (a * 16 + b) :: unquote rest
    | _, _ => '%' :: unquote (h1 :: h2 :: rest)
  | c :: rest => c :: unquote rest

/-- Concatenated map (used instead of the List monad for transparency). -/
def listFlat {α β : Type} (f : α → List β) : List α → List β
  | [] => []
  | x :: xs => f x ++ listFlat f xs

/-- UTF-8 encoding of one code point. -/
def utf8Char (c : Char) : List Nat :=
  let n := c.toNat
  if n < 128 then [n]
  else if n < 2048 then [192 + n / 64, 128 + n % 64]
  else if n < 65536 then [224 + n / 4096, 128 + n / 64 % 64, 128 + n % 64]
  else [240 + n / 262144, 128 + n / 4096 % 64, 128 + n / 64 % 64, 128 + n % 64]

/-- Python `s.encode('utf-8')`. -/
def utf8Bytes (s : Str) : List Nat := listFlat utf8Char s

/-! ### MD5 (hashlib.md5), executable -/

/-- Truncation to 32 bits. -/
def m32 (n : Nat) : Nat := n % 4294967296

/-- 32-bit left rotation (arguments below always satisfy `x < 2^32`,
`0 < s < 32`). -/
def rotl32 (x s : Nat) : Nat := m32 (x * 2 ^ s) + x / 2 ^ (32 - s)

/-- 32-bit complement. -/
def bnot32 (x : Nat) : Nat := x ^^^ 4294967295

/-- The MD5 sine-derived constant table. -/
def md5K : List Nat := [
  3614090360, 3905402710, 606105819, 3250441966, 4118548399, 1200080426, 2821735955, 4249261313,
  1770035416, 2336552879, 4294925233, 2304563134, 1804603682, 4254626195, 2792965006, 1236535329,
  4129170786, 3225465664, 643717713, 3921069994, 3593408605, 38016083, 3634488961, 3889429448,
  568446438, 3275163606, 4107603335, 1163531501, 2850285829, 4243563512, 1735328473, 2368359562,
  4294588738, 2272392833, 1839030562, 4259657740, 2763975236, 1272893353, 4139469664, 3200236656,
  681279174, 3936430074, 3572445317, 76029189, 3654602809, 3873151461, 530742520, 3299628645,
  4096336452, 1126891415, 2878612391, 4237533241, 1700485571, 2399980690, 4293915773, 2240044497,
  1873313359, 4264355552, 2734768916, 1309151649, 4149444226, 3174756917, 718787259, 3951481745]

/-- The MD5 per-round shift table. -/
def md5S : List Nat := [
  7, 12, 17, 22, 7, 12, 17, 22, 7, 12, 17, 22, 7, 12, 17, 22,
  5, 9, 14, 20, 5, 9, 14, 20, 5, 9, 14, 20, 5, 9, 14, 20,
  4, 11, 16, 23, 4, 11, 16, 23, 4, 11, 16, 23, 4, 11, 16, 23,
  6, 10, 15, 21, 6, 10, 15, 21, 6, 10, 15, 21, 6, 10, 15, 21]

/-- MD5 running state. -/
structure MD5St where
  a : Nat
  b : Nat
  c : Nat
  d : Nat
deriving DecidableEq

/-- Round function and message index for round `i`. -/
def md5F (i b c d : Nat) : Nat × Nat :=
  if i < 16 then ((b &&& c) ||| (bnot32 b &&& d), i)
  else if i < 32 then ((d &&& b) ||| (bnot32 d &&& c), (5 * i + 1) % 16)
  else if i < 48 then (b ^^^ c ^^^ d, (3 * i + 5) % 16)
  else (c ^^^ (b ||| bnot32 d), (7 * i) % 16)

/-- Little-endian 32-bit word `g` of a 64-byte block. -/
def le32At (block : List Nat) (g : Nat) : Nat :=
  block.getD (4 * g) 0 + 256 * block.getD (4 * g + 1) 0 +
    65536 * block.getD (4 * g + 2) 0 + 16777216 * block.getD (4 * g + 3) 0

/-- One MD5 round. -/
def md5Round (block : List Nat) (st : MD5St) (i : Nat) : MD5St :=
  let (f, g) := md5F i st.b st.c st.d
  let f2 := m32 (f + st.a + md5K.getD i 0 + le32At block g)
  ⟨st.d, m32 (st.b + rotl32 f2 (md5S.getD i 0)), st.b, st.c⟩

/-- Process one 64-byte block. -/
def md5Chunk (st : MD5St) (block : List Nat) : MD5St :=
  let r := (List.range 64).foldl (md5Round block) st
  ⟨m32 (st.a + r.a), m32 (st.b + r.b), m32 (st.c + r.c), m32 (st.d + r.d)⟩

/-- Little-endian byte encodings. -/
def u32leBytes (n : Nat) : List Nat :=
  [n % 256, n / 256 % 256, n / 65536 % 256, n / 16777216 % 256]

def u64leBytes (n : Nat) : List Nat :=
  u32leBytes (n % 4294967296) ++ u32leBytes (n / 4294967296)

def u16leBytes (n : Nat) : List Nat := [n % 256, n / 256 % 256]

/-- MD5 padding: `0x80`, zeros to 56 mod 64, 64-bit little-endian bit length. -/
def md5Pad (msg : List Nat) : List Nat :=
  let l := msg.length
  let padLen := (56 + 64 - (l + 1) % 64) % 64
  msg ++ 128 :: List.replicate padLen 0 ++ u64leBytes (8 * l)

/-- Fold the chunk function over the 64-byte blocks of a padded message.  The
`fuel` argument only drives structural recursion; callers pass the byte count,
which always suffices since every step consumes 64 bytes. -/
def md5Blocks (fuel : Nat) (st : MD5St) (bytes : List Nat) : MD5St :=
  match fuel, bytes with
  | 0, _ => st
  | _ + 1, [] => st
  | n + 1, b :: rest =>
    md5Blocks n (md5Chunk st ((b :: rest).take 64)) ((b :: rest).drop 64)

/-- `hashlib.md5(msg).digest()`. -/
def md5Digest (msg : List Nat) : List Nat :=
  let padded := md5Pad msg
  let st := md5Blocks padded.length ⟨1732584193, 4023233417, 2562383102, 271733878⟩ padded
  u32leBytes st.a ++ u32leBytes st.b ++ u32leBytes st.c ++ u32leBytes st.d

/-- `hashlib.md5(msg).digest()[:8]`, the identity-hash derivation. -/
def md5Trunc8 (msg : List Nat) : List Nat := (md5Digest msg).take 8

/-- Lowercase hex character of `n % 16`. -/
def hexCharLower (n : Nat) : Char :=
  let m := n % 16
  if m < 10 then Char.ofNat (48 + m) else Char.ofNat (87 + m)

/-- `hashlib.md5(msg).hexdigest()`. -/
def md5Hexdigest (msg : List Nat) : Str :=
  listFlat (fun b => [hexCharLower (b / 16), hexCharLower (b % 16)]) (md5Digest msg)

/-! ### Path normalization (os.path.normpath / abspath, posix) -/

/-- A path component that `normpath` passes through unchanged. -/
def goodPart (c : Str) : Bool := !(c == [] || c == ['.'] || c == ['.', '.'])

/-- The component-processing loop of `posixpath.normpath` (empty and `.`
components dropped; `..` pops, is kept on top of another `..` or, for relative
paths, on an empty stack). -/
def normParts (isAbs : Bool) : List Str → List Str → List Str
  | [], acc => acc.reverse
  | c :: rest, acc =>
    if c = [] ∨ c = ['.'] then normParts isAbs rest acc
    else if c = ['.', '.'] then
      if (¬ isAbs ∧ acc = []) ∨ acc.head? = some ['.', '.'] then normParts isAbs rest (c :: acc)
      else
        match acc with
        | [] => normParts isAbs rest []
        | _ :: as => normParts isAbs rest as
    else normParts isAbs rest (c :: acc)

/-- `posixpath.normpath`.  The special case preserving exactly two leading
slashes is not modelled. -/
def normpath (p : Str) : Str :=
  match p with
  | [] => ['.']
  | c :: rest =>
    if c = '/' then '/' :: pyIntercalate '/' (normParts true (pySplitChar '/' rest) [])
    else
      let l := normParts false (pySplitChar '/' (c :: rest)) []
      if l = [] then ['.'] else pyIntercalate '/' l

/-- `os.path.abspath`.  For absolute inputs `abspath = normpath`; the cwd-join
branch for relative inputs is not modelled, and every theorem below applies
this only to absolute paths. -/
def abspath (p : Str) : Str := normpath p

/-- `posixpath.join` for two operands: an absolute second operand discards the
first. -/
def pyJoin (a b : Str) : Str :=
  if b.head? = some '/' then b
  else if a = [] ∨ a.getLast? = some '/' then a ++ b
  else a ++ '/' :: b

/-- `os.path.commonprefix` on two strings: the longest common string prefix
(purely character-wise, not component-wise). -/
def commonStem : Str → Str → Str
  | a :: as, b :: bs => if a = b then a :: commonStem as bs else []
  | _, _ => []

/-- A normalized absolute path: leading `/`, all components nonempty and
none of them `.` or `..`. -/
def cleanAbsB : Str → Bool
  | [] => false
  | c :: rest => c == '/' && (pySplitChar '/' rest).all goodPart

/-- A filesystem entry name as `os.listdir` can return it: nonempty, without
separators, and not one of the two special directory entries. -/
def validNameB (n : Str) : Bool := goodPart n && decide ('/' ∉ n)

theorem commonStem_eq_right_iff : ∀ a b : Str, (commonStem a b = b ↔ b <+: a)
  | a, [] => by
    constructor
    · intro _; exact List.nil_prefix
    · intro _; cases a <;> rfl
  | [], b :: bs => by
    constructor
    · intro h; exact absurd h.symm (List.cons_ne_nil b bs)
    · intro h; exact absurd (List.eq_nil_of_prefix_nil h) (List.cons_ne_nil b bs)
  | a :: as, b :: bs => by
    by_cases h : a = b
    · subst h
      simp only [commonStem, eq_self_iff_true, if_true, List.cons_prefix_cons,
        List.cons.injEq, true_and]
      exact commonStem_eq_right_iff as bs
    · constructor
      · intro hc
        simp only [commonStem, if_neg h] at hc
        exact absurd hc.symm (List.cons_ne_nil b bs)
      · intro hp
        exact absurd (List.cons_prefix_cons.1 hp).1.symm h

theorem normParts_clean :
    ∀ parts acc : List Str, parts.all goodPart = true →
      normParts true parts acc = acc.reverse ++ parts
  | [], acc, _ => by simp [normParts]
  | c :: rest, acc, h => by
    rw [List.all_cons, Bool.and_eq_true] at h
    obtain ⟨hc, hrest⟩ := h
    have h1 : ¬ (c = [] ∨ c = ['.']) := by
      intro hor
      rcases hor with h' | h' <;> simp [h', goodPart] at hc
    have h2 : ¬ c = ['.', '.'] := by
      intro h'; simp [h', goodPart] at hc
    simp only [normParts, if_neg h1, if_neg h2, normParts_clean rest (c :: acc) hrest,
      List.reverse_cons, List.append_assoc, List.cons_append, List.nil_append]

theorem cleanAbsB_cases (p : Str) (h : cleanAbsB p = true) :
    ∃ rest, p = '/' :: rest ∧ (pySplitChar '/' rest).all goodPart = true := by
  cases p with
  | nil => simp [cleanAbsB] at h
  | cons c rest =>
    rw [cleanAbsB, Bool.and_eq_true, beq_iff_eq] at h
    exact ⟨rest, by rw [h.1], h.2⟩

theorem normpath_clean (p : Str) (h : cleanAbsB p = true) : normpath p = p := by
  obtain ⟨rest, hp, hall⟩ := cleanAbsB_cases p h
  subst hp
  show normpath ('/' :: rest) = '/' :: rest
  rw [normpath, if_pos rfl, normParts_clean _ [] hall]
  simp [join_split]

theorem abspath_clean (p : Str) (h : cleanAbsB p = true) : abspath p = p :=
  normpath_clean p h

theorem mem_pySplitChar_not_sep (sep : Char) :
    ∀ s : Str, ∀ part ∈ pySplitChar sep s, sep ∉ part
  | [], part, hm => by
    simp only [pySplitChar, List.mem_singleton] at hm
    simp [hm]
  | c :: rest, part, hm => by
    by_cases h : c = sep
    · simp only [pySplitChar, if_pos h] at hm
      rcases List.mem_cons.1 hm with h' | h'
      · simp [h']
      · exact mem_pySplitChar_not_sep sep rest part h'
    · simp only [pySplitChar, if_neg h] at hm
      cases hs : pySplitChar sep rest with
      | nil => exact absurd hs (pySplitChar_ne_nil sep rest)
      | cons g gs =>
        rw [hs] at hm
        rcases List.mem_cons.1 hm with h' | h'
        · subst h'
          intro hmem
          rcases List.mem_cons.1 hmem with h'' | h''
          · exact h h''.symm
          · exact mem_pySplitChar_not_sep sep rest g (hs ▸ List.mem_cons_self g gs) h''
        · exact mem_pySplitChar_not_sep sep rest part (hs ▸ List.mem_cons_of_mem g h')

theorem pyIntercalate_concat_getLast (sep : Char) (g : Str) (hg : g ≠ []) :
    ∀ parts : List Str, (pyIntercalate sep (parts ++ [g])).getLast? = g.getLast?
  | [] => rfl
  | p :: ps => by
    have hne : pyIntercalate sep ((p :: ps) ++ [g]) = p ++ sep :: pyIntercalate sep (ps ++ [g]) := by
      cases ps <;> simp [pyIntercalate]
    rw [hne, List.getLast?_append_of_ne_nil _ (by simp)]
    cases ps with
    | nil =>
      simp only [List.nil_append, pyIntercalate]
      cases g with
      | nil => exact absurd rfl hg
      | cons x xs => simp [List.getLast?_cons_cons]
    | cons q qs =>
      have := pyIntercalate_concat_getLast sep g hg (q :: qs)
      have h2 : pyIntercalate sep ((q :: qs) ++ [g]) ≠ [] := by
        cases qs <;> cases q <;> simp [pyIntercalate]
      rw [show (sep :: pyIntercalate sep ((q :: qs) ++ [g])).getLast?
            = (pyIntercalate sep ((q :: qs) ++ [g])).getLast? from ?_, this]
      cases hpi : pyIntercalate sep ((q :: qs) ++ [g]) with
      | nil => exact absurd hpi h2
      | cons y ys => simp [List.getLast?_cons_cons]

theorem cleanAbs_getLast_ne (base : Str) (hb : cleanAbsB base = true) :
    base.getLast? ≠ some '/' := by
  obtain ⟨rest, hp, hall⟩ := cleanAbsB_cases base hb
  subst hp
  rcases List.eq_nil_or_concat (pySplitChar '/' rest) with hnil | ⟨init, g, hsplit⟩
  · exact absurd hnil (pySplitChar_ne_nil '/' rest)
  rw [List.concat_eq_append] at hsplit
  have hg_mem : g ∈ pySplitChar '/' rest := hsplit ▸ (by simp)
  have hg_good : goodPart g = true := List.all_eq_true.1 hall g hg_mem
  have hg_ne : g ≠ [] := by
    intro h'; simp [h', goodPart] at hg_good
  have hg_nosep : '/' ∉ g := mem_pySplitChar_not_sep '/' rest g hg_mem
  have hrest_ne : rest ≠ [] := by
    intro h'
    rw [h'] at hall
    simp [pySplitChar, goodPart] at hall
  have hlast : rest.getLast? = g.getLast? := by
    conv_lhs => rw [← join_split '/' rest, hsplit]
    exact pyIntercalate_concat_getLast '/' g hg_ne init
  intro hcontra
  have hcons : ('/' :: rest).getLast? = rest.getLast? := by
    rw [List.getLast?_eq_getLast_of_ne_nil (l := '/' :: rest) (by simp),
      List.getLast_cons hrest_ne, ← List.getLast?_eq_getLast_of_ne_nil hrest_ne]
  rw [hcons, hlast] at hcontra
  have hx : '/' ∈ g := by
    rcases List.mem_getLast?_eq_getLast (l := g) (x := '/') (by rw [hcontra]; rfl) with ⟨h5, hx⟩
    rw [hx]
    exact List.getLast_mem h5
  exact hg_nosep hx

/-! ### Path codec (core.py, Record.path_to_ipod / Record.ipod_to_path) -/

/-- `Record.path_to_ipod` (core.py).  The containment test is
`os.path.commonprefix`, i.e. plain string prefixing; the raised `IOError` is
modelled as `Except.error`.  On POSIX the final
`"/".join(x.split(os.path.sep))` is split-then-rejoin on the same character,
kept as written. -/
def path_to_ipod (base filename : Str) : Except Unit Str :=
  if commonStem (abspath filename) base = base then
    let baselen := if base.getLast? = some '/' then base.length - 1 else base.length
    .ok (pyIntercalate '/' (pySplitChar '/' ((abspath filename).drop baselen)))
  else .error ()

/-- `Record.ipod_to_path` (core.py). -/
def ipod_to_path (base ipodname : Str) : Str :=
  abspath (pyJoin base (pyIntercalate '/' (pySplitChar '/' ipodname)))

theorem cleanAbs_append (base rest : Str) (hb : cleanAbsB base = true)
    (hr : cleanAbsB ('/' :: rest) = true) : cleanAbsB (base ++ '/' :: rest) = true := by
  obtain ⟨b, hpb, hallb⟩ := cleanAbsB_cases base hb
  obtain ⟨r2, he, hallr2⟩ := cleanAbsB_cases _ hr
  have hrr : rest = r2 := by injection he
  subst hrr
  subst hpb
  show cleanAbsB ('/' :: (b ++ '/' :: rest)) = true
  rw [cleanAbsB, Bool.and_eq_true, beq_iff_eq]
  refine ⟨rfl, ?_⟩
  rw [pySplitChar_append_sep, List.all_append]
  rw [Bool.and_eq_true]
  exact ⟨hallb, hallr2⟩

theorem ipod_to_path_clean (base t : Str) (ht : cleanAbsB t = true) :
    ipod_to_path base t = t := by
  obtain ⟨r, hp, _⟩ := cleanAbsB_cases t ht
  rw [ipod_to_path, join_split, pyJoin, hp]
  simp only [List.head?_cons, if_pos rfl]
  rw [← hp]
  exact abspath_clean t ht

theorem path_to_ipod_under (base rest : Str) (hb : cleanAbsB base = true)
    (hr : cleanAbsB ('/' :: rest) = true) :
    path_to_ipod base (base ++ '/' :: rest) = .ok ('/' :: rest) := by
  have hclean := cleanAbs_append base rest hb hr
  have habs : abspath (base ++ '/' :: rest) = base ++ '/' :: rest := abspath_clean _ hclean
  have hpref : base <+: base ++ '/' :: rest := ⟨'/' :: rest, rfl⟩
  have hcs : commonStem (abspath (base ++ '/' :: rest)) base = base := by
    rw [habs]
    exact (commonStem_eq_right_iff _ base).2 hpref
  rw [path_to_ipod, if_pos hcs, habs, if_neg (cleanAbs_getLast_ne base hb)]
  show Except.ok (pyIntercalate '/' (pySplitChar '/' (List.drop base.length (base ++ '/' :: rest)))) =
    Except.ok ('/' :: rest)
  rw [List.drop_left, join_split]

theorem path_to_ipod_isOk_iff (base q : Str) (hq : cleanAbsB q = true) :
    ((path_to_ipod base q).isOk = true ↔ base <+: q) := by
  rw [path_to_ipod, abspath_clean q hq]
  by_cases h : commonStem q base = base
  · simp only [if_pos h, Except.isOk, Except.toBool]
    simp only [true_iff]
    exact (commonStem_eq_right_iff q base).1 h
  · simp only [if_neg h, Except.isOk, Except.toBool]
    constructor
    · intro hfalse; exact absurd hfalse (by simp)
    · intro hp; exact absurd ((commonStem_eq_right_iff q base).2 hp) h

/-- Claim C2 counterexample: for the device root `/mnt/ipod` and the track
`/mnt/ipod/Music/a.mp3` (strictly under the root), the claimed round trip
produces `/Music/a.mp3`, not the original path — `path_to_ipod` keeps a
leading slash, and `os.path.join` with an absolute second operand discards the
root again.  Moreover `/mnt/ipodX/a.mp3` lies outside the root (it is neither
the root nor root-plus-separator-prefixed) yet `path_to_ipod` accepts it,
because the containment test is plain string prefixing. -/
theorem c2_counterexample :
    path_to_ipod "/mnt/ipod".data "/mnt/ipod/Music/a.mp3".data = .ok "/Music/a.mp3".data ∧
    ipod_to_path "/mnt/ipod".data "/Music/a.mp3".data = "/Music/a.mp3".data ∧
    "/Music/a.mp3".data ≠ "/mnt/ipod/Music/a.mp3".data ∧
    (path_to_ipod "/mnt/ipod".data "/mnt/ipodX/a.mp3".data).isOk = true := by
  exact ⟨by rfl, by decide, by decide, by decide⟩

/-- Claim C2 (amended): for a normalized absolute device root and a path
`root ++ "/" ++ rest` strictly under it, `path_to_ipod` succeeds and returns
the suffix with a leading slash; applying `ipod_to_path` to that result
returns the same leading-slash suffix (i.e. the round trip reconstructs the
path with the device-root prefix stripped, not the original path); and
`path_to_ipod` fails exactly for the paths of which the root is not a plain
string prefix (string containment, weaker than path containment). -/
theorem c2_path_codec_amended (base rest : Str) (hb : cleanAbsB base = true)
    (hr : cleanAbsB ('/' :: rest) = true) :
    path_to_ipod base (base ++ '/' :: rest) = .ok ('/' :: rest) ∧
    ipod_to_path base ('/' :: rest) = '/' :: rest ∧
    (∀ q : Str, cleanAbsB q = true → ((path_to_ipod base q).isOk = true ↔ base <+: q)) :=
  ⟨path_to_ipod_under base rest hb hr, ipod_to_path_clean base _ hr,
   fun q hq => path_to_ipod_isOk_iff base q hq⟩

/-- Witness for `c2_path_codec_amended` at the device root `/mnt/ipod` and
suffix `Music/a.mp3`. -/
theorem c2_path_codec_amended_witness :
    cleanAbsB "/mnt/ipod".data = true ∧
    cleanAbsB ('/' :: "Music/a.mp3".data) = true ∧
    (path_to_ipod "/mnt/ipod".data ("/mnt/ipod".data ++ '/' :: "Music/a.mp3".data) =
        .ok ('/' :: "Music/a.mp3".data) ∧
      ipod_to_path "/mnt/ipod".data ('/' :: "Music/a.mp3".data) = '/' :: "Music/a.mp3".data ∧
      (∀ q : Str, cleanAbsB q = true →
        ((path_to_ipod "/mnt/ipod".data q).isOk = true ↔ "/mnt/ipod".data <+: q))) :=
  ⟨by decide, by decide,
   c2_path_codec_amended "/mnt/ipod".data "Music/a.mp3".data (by decide) (by decide)⟩

/-! ### Relative-path helpers (utils.py) -/

/-- `utils.splitpath` (`os.sep = '/'`). -/
def splitpathFn (p : Str) : List Str := pySplitChar '/' p

/-- `os.path.commonprefix` on two component lists. -/
def commonStemL : List Str → List Str → List Str
  | a :: as, b :: bs => if a = b then a :: commonStemL as bs else []
  | _, _ => []

/-- `posixpath.relpath` for absolute arguments. -/
def pyRelpath (path start : Str) : Str :=
  let pl := (pySplitChar '/' (abspath path)).filter (· ≠ [])
  let sl := (pySplitChar '/' (abspath start)).filter (· ≠ [])
  let i := (commonStemL sl pl).length
  let rel := List.replicate (sl.length - i) ['.', '.'] ++ pl.drop i
  if rel = [] then ['.'] else pyIntercalate '/' rel

/-- `utils.get_relpath`. -/
def get_relpath (path basepath : Str) : Str :=
  pyRelpath path (pyIntercalate '/' (commonStemL (splitpathFn path) (splitpathFn basepath)))

/-- `utils.is_path_prefix` (the source name itself is kept in the doc string;
the Lean identifier differs only in casing conventions). -/
def isPathPrefixFn (pre path : Str) : Bool :=
  pre == pyIntercalate '/' (commonStemL (splitpathFn pre) (splitpathFn path))

/-! ### Artist/album dedup tables (core.py, Track.populate) -/

/-- Python `list.index` on string lists: index of the first occurrence (the
value for an absent element is never used by the callers below, which test
membership first). -/
def pyIndex (a : Str) : List Str → Nat
  | [] => 0
  | b :: bs => if b = a then 0 else pyIndex a bs + 1

theorem pyIndex_append_of_mem (a : Str) :
    ∀ l1 l2 : List Str, a ∈ l1 → pyIndex a (l1 ++ l2) = pyIndex a l1
  | b :: bs, l2, h => by
    by_cases hb : b = a
    · simp [pyIndex, hb]
    · have : a ∈ bs := by
        rcases List.mem_cons.1 h with h1 | h1
        · exact absurd h1.symm hb
        · exact h1
      simp [pyIndex, hb, pyIndex_append_of_mem a bs l2 this]

theorem pyIndex_append_of_not_mem (a : Str) :
    ∀ l1 l2 : List Str, a ∉ l1 → pyIndex a (l1 ++ l2) = l1.length + pyIndex a l2
  | [], l2, _ => by simp [pyIndex]
  | b :: bs, l2, h => by
    have hb : ¬ b = a := fun he => h (he ▸ List.mem_cons_self b bs)
    have hbs : a ∉ bs := fun hm => h (List.mem_cons_of_mem b hm)
    simp [pyIndex, hb, pyIndex_append_of_not_mem a bs l2 hbs]
    omega

theorem pyIndex_inj (a b : Str) :
    ∀ l : List Str, a ∈ l → b ∈ l → pyIndex a l = pyIndex b l → a = b
  | c :: cs, ha, hb, he => by
    by_cases hca : c = a <;> by_cases hcb : c = b
    · rw [← hca, hcb]
    · rw [pyIndex, pyIndex, if_pos hca, if_neg hcb] at he
      exact absurd he.symm (Nat.succ_ne_zero _)
    · rw [pyIndex, pyIndex, if_neg hca, if_pos hcb] at he
      exact absurd he (Nat.succ_ne_zero _)
    · have ha2 : a ∈ cs := by
        rcases List.mem_cons.1 ha with h1 | h1
        · exact absurd h1.symm hca
        · exact h1
      have hb2 : b ∈ cs := by
        rcases List.mem_cons.1 hb with h1 | h1
        · exact absurd h1.symm hcb
        · exact h1
      rw [pyIndex, pyIndex, if_neg hca, if_neg hcb] at he
      exact pyIndex_inj a b cs ha2 hb2 (Nat.succ_injective he)

/-- One lookup-or-insert step of the artist/album tables in `Track.populate`:
a previously seen display name reuses `list.index(name)` (its first index), a
new name is appended and receives the next free index `len(table)`. -/
def assignId (table : List Str) (name : Str) : Nat × List Str :=
  if name ∈ table then (pyIndex name table, table)
  else (table.length, table ++ [name])

/-- Run a sequence of encountered names through `assignId`, returning the list
of assigned IDs and the final table. -/
def runIds (table : List Str) : List Str → List Nat × List Str
  | [] => ([], table)
  | n :: rest =>
    ((assignId table n).1 :: (runIds (assignId table n).2 rest).1,
      (runIds (assignId table n).2 rest).2)

/-- The table evolution in isolation: the names in order of first appearance
(appended at the end on first sight). -/
def firstOccs (acc : List Str) : List Str → List Str
  | [] => acc
  | n :: rest => firstOccs (if n ∈ acc then acc else acc ++ [n]) rest

theorem runIds_table_eq :
    ∀ (names : List Str) (table : List Str), (runIds table names).2 = firstOccs table names
  | [], table => rfl
  | n :: rest, table => by
    rw [runIds, firstOccs, ← runIds_table_eq rest]
    by_cases h : n ∈ table <;> simp [assignId, h]

theorem runIds_table_pref :
    ∀ (names : List Str) (table : List Str), table <+: (runIds table names).2
  | [], table => ⟨[], List.append_nil table⟩
  | n :: rest, table => by
    have h1 : table <+: (assignId table n).2 := by
      rw [assignId]
      by_cases h : n ∈ table
      · rw [if_pos h]
      · rw [if_neg h]; exact ⟨[n], rfl⟩
    exact h1.trans (runIds_table_pref rest (assignId table n).2)

theorem runIds_length :
    ∀ (names : List Str) (table : List Str), (runIds table names).1.length = names.length
  | [], _ => rfl
  | n :: rest, table => by
    rw [runIds]
    simp [runIds_length rest]

theorem runIds_mem_table :
    ∀ (names : List Str) (table : List Str) (i : Nat), i < names.length →
      names.getD i [] ∈ (runIds table names).2
  | n :: rest, table, 0, _ => by
    rw [runIds, List.getD_cons_zero]
    have h1 : n ∈ (assignId table n).2 := by
      rw [assignId]
      by_cases h : n ∈ table
      · rw [if_pos h]; exact h
      · rw [if_neg h]; simp
    obtain ⟨t, ht⟩ := runIds_table_pref rest (assignId table n).2
    rw [← ht]
    exact List.mem_append_left t h1
  | n :: rest, table, i + 1, hi => by
    rw [runIds, List.getD_cons_succ]
    exact runIds_mem_table rest (assignId table n).2 i (by simpa using hi)

theorem runIds_id_spec :
    ∀ (names : List Str) (table : List Str) (i : Nat), i < names.length →
      (runIds table names).1.getD i 0 = pyIndex (names.getD i []) (runIds table names).2
  | n :: rest, table, 0, _ => by
    rw [runIds, List.getD_cons_zero, List.getD_cons_zero]
    obtain ⟨t, ht⟩ := runIds_table_pref rest (assignId table n).2
    rw [← ht, assignId]
    by_cases h : n ∈ table
    · rw [if_pos h]
      show pyIndex n table = pyIndex n (table ++ t)
      rw [pyIndex_append_of_mem n table t h]
    · rw [if_neg h]
      show table.length = pyIndex n (table ++ [n] ++ t)
      rw [pyIndex_append_of_mem n (table ++ [n]) t (by simp),
        pyIndex_append_of_not_mem n table [n] h, pyIndex]
      simp
  | n :: rest, table, i + 1, hi => by
    rw [runIds, List.getD_cons_succ, List.getD_cons_succ]
    exact runIds_id_spec rest (assignId table n).2 i (by simpa using hi)

theorem firstOccs_nodup :
    ∀ (names acc : List Str), acc.Nodup → (firstOccs acc names).Nodup
  | [], _, ha => ha
  | n :: rest, acc, ha => by
    rw [firstOccs]
    by_cases h : n ∈ acc
    · rw [if_pos h]; exact firstOccs_nodup rest acc ha
    · rw [if_neg h]
      refine firstOccs_nodup rest _ (List.Nodup.append ha (List.nodup_singleton n) ?_)
      intro x hx hx2
      rw [List.mem_singleton] at hx2
      exact h (hx2 ▸ hx)

/-- Claim C3: within one run the artist/album dedup tables are bijective.  For
any sequence of encountered display names (processed from an empty table, as
`Shuffler` initializes `self.artists`/`self.albums`): the final table lists the
distinct names in order of first appearance (`firstOccs`) without duplicates;
each encounter is assigned the index of its name in that final table — so a
re-encountered name always receives the previously assigned ID, the ID equals
the 0-based first-appearance order of the name, and two encounters receive the
same ID exactly when they carry the same name (distinct names never share an
ID). -/
theorem c3_dedup_bijective (names : List Str) :
    (runIds [] names).2 = firstOccs [] names ∧
    (runIds [] names).2.Nodup ∧
    (runIds [] names).1.length = names.length ∧
    (∀ i : Nat, i < names.length →
      (runIds [] names).1.getD i 0 = pyIndex (names.getD i []) (runIds [] names).2) ∧
    (∀ i j : Nat, i < names.length → j < names.length →
      (names.getD i [] = names.getD j [] ↔
        (runIds [] names).1.getD i 0 = (runIds [] names).1.getD j 0)) := by
  refine ⟨runIds_table_eq names [], ?_, runIds_length names [], runIds_id_spec names [], ?_⟩
  · rw [runIds_table_eq names []]
    exact firstOccs_nodup names [] List.nodup_nil
  · intro i j hi hj
    rw [runIds_id_spec names [] i hi, runIds_id_spec names [] j hj]
    constructor
    · intro he; rw [he]
    · intro he
      exact pyIndex_inj _ _ _ (runIds_mem_table names [] i hi)
        (runIds_mem_table names [] j hj) he

/-- Witness for `c3_dedup_bijective`: the run Queen, Dio, Queen assigns the IDs
0, 1, 0 and ends with the table [Queen, Dio]. -/
theorem c3_dedup_bijective_witness :
    (runIds [] ["Queen".data, "Dio".data, "Queen".data]).1 = [0, 1, 0] ∧
    (runIds [] ["Queen".data, "Dio".data, "Queen".data]).2 = ["Queen".data, "Dio".data] ∧
    ((runIds [] ["Queen".data, "Dio".data, "Queen".data]).2 =
        firstOccs [] ["Queen".data, "Dio".data, "Queen".data] ∧
      (runIds [] ["Queen".data, "Dio".data, "Queen".data]).2.Nodup ∧
      (runIds [] ["Queen".data, "Dio".data, "Queen".data]).1.length = 3 ∧
      (∀ i : Nat, i < 3 →
        (runIds [] ["Queen".data, "Dio".data, "Queen".data]).1.getD i 0 =
          pyIndex (["Queen".data, "Dio".data, "Queen".data].getD i [])
            (runIds [] ["Queen".data, "Dio".data, "Queen".data]).2) ∧
      (∀ i j : Nat, i < 3 → j < 3 →
        (["Queen".data, "Dio".data, "Queen".data].getD i [] =
            ["Queen".data, "Dio".data, "Queen".data].getD j [] ↔
          (runIds [] ["Queen".data, "Dio".data, "Queen".data]).1.getD i 0 =
            (runIds [] ["Queen".data, "Dio".data, "Queen".data]).1.getD j 0))) :=
  ⟨by decide, by decide, c3_dedup_bijective ["Queen".data, "Dio".data, "Queen".data]⟩

/-! ### File-name classification constants (utils.py) -/

/-- `utils.audio_ext`. -/
def audio_ext : List Str :=
  [".mp3".data, ".m4a".data, ".m4b".data, ".m4p".data, ".aa".data, ".wav".data]

/-- `utils.list_ext`. -/
def list_ext : List Str := [".pls".data, ".m3u".data]

/-! ### Unicode sanitizer primitives (utils.py) -/

/-- `utils.raises_unicode_error`: latin-1 encoding fails exactly when some
code point exceeds 255. -/
def raises_unicode_error (s : Str) : Bool := s.any (fun c => 255 < c.toNat)

/-- Uppercase hex character of `n % 16`. -/
def hexCharUpper (n : Nat) : Char :=
  let m := n % 16
  if m < 10 then Char.ofNat (48 + m) else Char.ofNat (55 + m)

/-- Python `"{0:02X}".format(n)` for `n < 256`; the callers only format code
points of hexdigest characters, which are ASCII. -/
def byteHexUpper (n : Nat) : Str := [hexCharUpper (n / 16), hexCharUpper (n % 16)]

/-- `utils.hash_error_unicode`: the first eight hexdigest characters of the
name's MD5, reversed, each replaced by the uppercase hex of its code point. -/
def hash_error_unicode (item : Str) : Str :=
  listFlat (fun c => byteHexUpper c.toNat) (((md5Hexdigest (utf8Bytes item)).take 8).reverse)

/-- `utils.validate_unicode`: hash every path component that fails latin-1
encoding; re-append the (lowercased) extension when the last component was
hashed and the extension is a recognized audio extension. -/
def validate_unicode (path : Str) : Str :=
  let parts := pySplitChar '/' path
  let processed := parts.map (fun c => if raises_unicode_error c then hash_error_unicode c else c)
  let lastRaise :=
    match parts.getLast? with
    | some c => raises_unicode_error c
    | none => false
  let ext := pyLower (splitext path).2
  pyIntercalate '/' processed ++ (if lastRaise = true ∧ ext ∈ audio_ext then ext else [])

/-! ### Playlist records (core.py, Playlist / PlaylistHeader) -/

/-- The variable fields of a `Playlist` record (`Playlist._struct`); the magic
and the 16 reserved bytes are constants supplied at serialization. -/
structure PlaylistRecord where
  total_length : Nat
  number_of_songs : Nat
  number_of_nonaudio : Nat
  dbid : List Nat
  listtype : Nat
  entries : List Nat
deriving DecidableEq

/-- One resolution step of `Playlist.construct`: `tracks.index(path)` inside
try/except; a `ValueError` (path absent) leaves `position = -1` and the entry
is skipped, modelled by `none`. -/
def resolveOne (tracks : List Str) (path : Str) : Option Nat :=
  if path ∈ tracks then some (pyIndex path tracks) else none

/-- The member-resolution loop of `Playlist.construct` over `self.listtracks`:
each entry is mapped through `ipod_to_path` and looked up in the track list;
misses are reported and skipped. -/
def resolveEntries (base : Str) (tracks : List Str) (listtracks : List Str) : List Nat :=
  listtracks.filterMap (fun i => resolveOne tracks (ipod_to_path base i))

/-- `Playlist.construct` for an ordinary playlist previously filled by
`Playlist.populate` with display text `text` and paths `listtracks`.  Note
that `total_length` is computed from `len(self.listtracks)` before unresolved
entries are skipped, while `number_of_songs` counts only the resolved ones. -/
def playlistConstruct (base : Str) (tracks : List Str) (text : Str) (listtracks : List Str) :
    PlaylistRecord :=
  { total_length := 44 + 4 * listtracks.length
    number_of_songs := (resolveEntries base tracks listtracks).length
    number_of_nonaudio := (resolveEntries base tracks listtracks).length
    dbid := md5Trunc8 (utf8Bytes text)
    listtype := 2
    entries := resolveEntries base tracks listtracks }

/-- `Playlist.set_master` followed by `Playlist.construct`: the member list is
the whole track list and `listtype` is 1.  The dbid is the hash of the literal
sentinel `"masterlist"` only when playlist voiceover is enabled and one of
pico2wave, espeak or say is available (`tts`); otherwise it keeps the all-zero
default reserved for the builtin All Songs clip. -/
def masterConstruct (pv tts : Bool) (base : Str) (tracks : List Str) : PlaylistRecord :=
  { total_length := 44 + 4 * tracks.length
    number_of_songs := (resolveEntries base tracks tracks).length
    number_of_nonaudio := (resolveEntries base tracks tracks).length
    dbid := if pv && tts then md5Trunc8 (utf8Bytes "masterlist".data) else List.replicate 8 0
    listtype := 1
    entries := resolveEntries base tracks tracks }

/-- ASCII byte values of a literal (for the record magics). -/
def asciiBytes (s : String) : List Nat := s.data.map Char.toNat

/-- `Record.construct` for a `Playlist`: `<4s I I I 8s I 16s` followed by one
u32 per resolved member track. -/
def playlistBytes (r : PlaylistRecord) : List Nat :=
  asciiBytes "lphs" ++ u32leBytes r.total_length ++ u32leBytes r.number_of_songs ++
    u32leBytes r.number_of_nonaudio ++ r.dbid ++ u32leBytes r.listtype ++
    List.replicate 16 0 ++ listFlat u32leBytes r.entries

/-- The payload list built by `PlaylistHeader.construct`: the master list
first, then every populated playlist whose resolved song count is positive
(playlists without a single resolved track are reported and skipped). -/
def playlistChunks (pv tts : Bool) (base : Str) (tracks : List Str)
    (lists : List (Str × List Str)) : List PlaylistRecord :=
  masterConstruct pv tts base tracks ::
    ((lists.map (fun pl => playlistConstruct base tracks pl.1 pl.2)).filter
      (fun r => 0 < r.number_of_songs))

/-- The offset table of `PlaylistHeader.construct`: one u32 absolute offset
per payload, from `base_offset + total_length` by running byte totals. -/
def offsetBytes (start : Nat) : List (List Nat) → List Nat
  | [] => []
  | c :: cs => u32leBytes start ++ offsetBytes (start + c.length) cs

/-- `PlaylistHeader.construct`: the header (`number_of_playlists` counts the
master plus the non-empty playlists; `total_length = 0x14 + 4 * count`; the
three 2-byte counters are the fixed constants of `PlaylistHeader._struct`),
the offset table, then the payloads.  Returns the `number_of_playlists` field
together with the emitted bytes. -/
def playlistHeaderConstruct (pv tts : Bool) (baseOffset : Nat) (base : Str)
    (tracks : List Str) (lists : List (Str × List Str)) : Nat × List Nat :=
  let chunks := (playlistChunks pv tts base tracks lists).map playlistBytes
  let count := chunks.length
  let tlen := 0x14 + 4 * count
  (count,
    asciiBytes "hphs" ++ u32leBytes tlen ++ u32leBytes count ++ [255, 255] ++ [1, 0] ++
      [255, 255] ++ [0, 0] ++ offsetBytes (baseOffset + tlen) chunks ++
      listFlat (fun c => c) chunks)

theorem playlistBytes_length (r : PlaylistRecord) (h8 : r.dbid.length = 8) :
    (playlistBytes r).length = 44 + 4 * r.entries.length := by
  have hflat : ∀ l : List Nat, (listFlat u32leBytes l).length = 4 * l.length := by
    intro l
    induction l with
    | nil => rfl
    | cons x xs ih =>
      simp only [listFlat, List.length_append, ih, u32leBytes, List.length_cons]
      simp [Nat.mul_succ]
      omega
  simp only [playlistBytes, List.length_append, hflat, h8]
  rfl

/-- Claim C5 (code-bug exhibit): with track table `[/ipod/a.mp3]` and a
playlist whose single entry `/ipod/missing.mp3` fails to resolve, the emitted
`total_length` field is 48 = 44 + 4·1 — it counts the unresolved entry —
while `number_of_songs` is 0 and the payload actually emitted after
serialization is 44 bytes long: the field disagrees with
44 + 4·number_of_songs because `Playlist.construct` fixes `total_length` from
`len(self.listtracks)` before skipping unresolved entries. -/
theorem c5_total_length_counts_unresolved :
    (playlistConstruct "/ipod".data ["/ipod/a.mp3".data] "p".data
        ["/ipod/missing.mp3".data]).total_length = 48 ∧
    (playlistConstruct "/ipod".data ["/ipod/a.mp3".data] "p".data
        ["/ipod/missing.mp3".data]).number_of_songs = 0 ∧
    (playlistBytes (playlistConstruct "/ipod".data ["/ipod/a.mp3".data] "p".data
        ["/ipod/missing.mp3".data])).length = 44 := by
  refine ⟨by rfl, by rfl, ?_⟩
  rw [playlistBytes_length _ (by decide)]
  rfl

/-- Claim C4: a playlist none of whose entries resolves against the track
table is entirely absent from the emitted playlist table — removing it from
the scanned list leaves the emitted bytes (header, offset table and payloads)
unchanged, so the ordering and offsets of the other playlists are exactly
those of the run without it — and the `number_of_playlists` field equals one
(the master list) plus the number of playlists with a positive resolved-track
count. -/
theorem c4_empty_playlist_dropped (pv tts : Bool) (off : Nat) (base : Str)
    (tracks : List Str) (l1 l2 : List (Str × List Str)) (p : Str × List Str)
    (hp : (resolveEntries base tracks p.2).length = 0) :
    playlistHeaderConstruct pv tts off base tracks (l1 ++ p :: l2) =
      playlistHeaderConstruct pv tts off base tracks (l1 ++ l2) ∧
    (playlistHeaderConstruct pv tts off base tracks (l1 ++ l2)).1 =
      1 + ((l1 ++ l2).filter
        (fun q => 0 < (resolveEntries base tracks q.2).length)).length := by
  have hchunks : ∀ ls : List (Str × List Str),
      (playlistChunks pv tts base tracks ls).length =
        1 + (ls.filter (fun q => 0 < (resolveEntries base tracks q.2).length)).length := by
    intro ls
    have : (fun r : PlaylistRecord => decide (0 < r.number_of_songs)) ∘
        (fun pl : Str × List Str => playlistConstruct base tracks pl.1 pl.2) =
        (fun q : Str × List Str => decide (0 < (resolveEntries base tracks q.2).length)) := by
      funext q; rfl
    simp only [playlistChunks, List.length_cons, List.filter_map, this, List.length_map]
    omega
  have hdrop : playlistChunks pv tts base tracks (l1 ++ p :: l2) =
      playlistChunks pv tts base tracks (l1 ++ l2) := by
    simp only [playlistChunks, List.map_append, List.map_cons, List.filter_append,
      List.filter_cons]
    have : ¬ 0 < (playlistConstruct base tracks p.1 p.2).number_of_songs := by
      show ¬ 0 < (resolveEntries base tracks p.2).length
      rw [hp]
      exact Nat.lt_irrefl 0
    simp [this]
  constructor
  · rw [playlistHeaderConstruct, playlistHeaderConstruct, hdrop]
  · rw [playlistHeaderConstruct]
    show ((playlistChunks pv tts base tracks (l1 ++ l2)).map playlistBytes).length = _
    rw [List.length_map, hchunks]

set_option maxRecDepth 200000 in
/-- Witness for `c4_empty_playlist_dropped`: a concrete run with one resolvable
playlist and one playlist whose only entry is missing from the track table. -/
theorem c4_empty_playlist_dropped_witness :
    (resolveEntries "/ipod".data ["/ipod/a.mp3".data] ["/ipod/gone.mp3".data]).length = 0 ∧
    (playlistHeaderConstruct true true 64 "/ipod".data ["/ipod/a.mp3".data]
        ([("x".data, ["/ipod/a.mp3".data])] ++ ("bad".data, ["/ipod/gone.mp3".data]) ::
          [("y".data, ["/ipod/a.mp3".data])]) =
      playlistHeaderConstruct true true 64 "/ipod".data ["/ipod/a.mp3".data]
        ([("x".data, ["/ipod/a.mp3".data])] ++ [("y".data, ["/ipod/a.mp3".data])]) ∧
    (playlistHeaderConstruct true true 64 "/ipod".data ["/ipod/a.mp3".data]
        ([("x".data, ["/ipod/a.mp3".data])] ++ [("y".data, ["/ipod/a.mp3".data])])).1 =
      1 + (([("x".data, ["/ipod/a.mp3".data])] ++ [("y".data, ["/ipod/a.mp3".data])]).filter
        (fun q => 0 < (resolveEntries "/ipod".data ["/ipod/a.mp3".data] q.2).length)).length) :=
  ⟨by decide,
   c4_empty_playlist_dropped true true 64 "/ipod".data ["/ipod/a.mp3".data]
     [("x".data, ["/ipod/a.mp3".data])] [("y".data, ["/ipod/a.mp3".data])]
     ("bad".data, ["/ipod/gone.mp3".data]) (by decide)⟩

set_option maxRecDepth 200000 in
/-- Claim C8 counterexample: with playlist voiceover disabled (and likewise
when no TTS engine is available) `set_master` leaves the master dbid at the
all-zero default instead of deriving it from the sentinel — and the sentinel
hash is not the zero dbid, so the two behaviours differ. -/
theorem c8_counterexample :
    (masterConstruct false false "/ipod".data ["/ipod/a.mp3".data]).dbid =
      List.replicate 8 0 ∧
    md5Trunc8 (utf8Bytes "masterlist".data) ≠ List.replicate 8 0 :=
  ⟨by rfl, by decide⟩

/-- Claim C8 (amended): the master playlist's 8-byte identity hash is derived
by hashing the fixed literal sentinel string `"masterlist"` exactly when
playlist voiceover is enabled and one of the pico2wave/espeak/say engines is
available; otherwise it is the all-zero dbid reserved for the device's builtin
All Songs clip.  Because the hash input is a fixed literal, the derived
voiceover clip name is identical across runs. -/
theorem c8_master_dbid_amended (pv tts : Bool) (base : Str) (tracks : List Str) :
    (masterConstruct pv tts base tracks).dbid =
      (if pv && tts then md5Trunc8 (utf8Bytes "masterlist".data) else List.replicate 8 0) :=
  rfl

theorem map_pyIndex_self :
    ∀ tracks : List Str, tracks.Nodup →
      tracks.map (fun t => pyIndex t tracks) = List.range tracks.length
  | [], _ => rfl
  | a :: as, hnd => by
    have hna : a ∉ as := (List.nodup_cons.1 hnd).1
    have hnd2 : as.Nodup := (List.nodup_cons.1 hnd).2
    rw [List.map_cons]
    have h0 : pyIndex a (a :: as) = 0 := by rw [pyIndex, if_pos rfl]
    have hmap : as.map (fun t => pyIndex t (a :: as)) =
        (as.map (fun t => pyIndex t as)).map (fun n => n + 1) := by
      rw [List.map_map]
      apply List.map_congr_left
      intro t ht
      show pyIndex t (a :: as) = pyIndex t as + 1
      rw [pyIndex]
      have hne : ¬ a = t := fun he => hna (he ▸ ht)
      rw [if_neg hne]
    rw [h0, hmap, map_pyIndex_self as hnd2, List.length_cons, List.range_succ_eq_map]

theorem resolveEntries_self (base : Str) (tracks : List Str) (hnd : tracks.Nodup)
    (hcl : ∀ t ∈ tracks, cleanAbsB t = true) :
    resolveEntries base tracks tracks = List.range tracks.length := by
  have h1 : resolveEntries base tracks tracks =
      tracks.filterMap (fun t => resolveOne tracks t) :=
    List.filterMap_congr (fun t ht => by rw [ipod_to_path_clean base t (hcl t ht)])
  have h2 : tracks.filterMap (fun t => resolveOne tracks t) =
      tracks.filterMap (fun t => some (pyIndex t tracks)) :=
    List.filterMap_congr (fun t ht => by rw [resolveOne, if_pos ht])
  have h3 : tracks.filterMap (fun t => some (pyIndex t tracks)) =
      tracks.map (fun t => pyIndex t tracks) :=
    congrFun (List.filterMap_eq_map (fun t => pyIndex t tracks)) tracks
  rw [h1, h2, h3]
  exact map_pyIndex_self tracks hnd

/-- Claim C7: in every emitted playlist table exactly one master playlist
exists; it is the first payload, it is the only one whose list-type field is 1
(all following payloads carry list-type 2), and — for the scanned track list,
whose entries are distinct normalized absolute paths — its member-index array
is exactly 0, 1, ..., N-1, enumerating every track once in database order. -/
theorem c7_master_playlist (pv tts : Bool) (base : Str) (tracks : List Str)
    (lists : List (Str × List Str)) (hnd : tracks.Nodup)
    (hcl : ∀ t ∈ tracks, cleanAbsB t = true) :
    (playlistChunks pv tts base tracks lists).head? =
      some (masterConstruct pv tts base tracks) ∧
    (masterConstruct pv tts base tracks).listtype = 1 ∧
    (masterConstruct pv tts base tracks).entries = List.range tracks.length ∧
    (∀ r ∈ (playlistChunks pv tts base tracks lists).tail, r.listtype = 2) ∧
    (playlistChunks pv tts base tracks lists).filter (fun r => r.listtype == 1) =
      [masterConstruct pv tts base tracks] := by
  have htail : ∀ r ∈ (playlistChunks pv tts base tracks lists).tail, r.listtype = 2 := by
    intro r hr
    simp only [playlistChunks, List.tail_cons] at hr
    rcases List.mem_map.1 (List.mem_of_mem_filter hr) with ⟨q, _, hq⟩
    rw [← hq]
    rfl
  refine ⟨rfl, rfl, resolveEntries_self base tracks hnd hcl, htail, ?_⟩
  show (masterConstruct pv tts base tracks ::
      ((lists.map (fun pl => playlistConstruct base tracks pl.1 pl.2)).filter
        (fun r => 0 < r.number_of_songs))).filter (fun r => r.listtype == 1) = _
  rw [List.filter_cons]
  have hnil : ((lists.map (fun pl => playlistConstruct base tracks pl.1 pl.2)).filter
      (fun r => 0 < r.number_of_songs)).filter (fun r => r.listtype == 1) = [] := by
    rw [List.filter_eq_nil_iff]
    intro r hr
    have h2 : r.listtype = 2 := htail r (by simpa [playlistChunks] using hr)
    simp [h2]
  rw [hnil]
  simp [masterConstruct]

set_option maxRecDepth 200000 in
/-- Witness for `c7_master_playlist`: device root `/ipod`, two tracks and one
ordinary playlist. -/
theorem c7_master_playlist_witness :
    (["/ipod/A.mp3".data, "/ipod/b.mp3".data] : List Str).Nodup ∧
    (∀ t ∈ (["/ipod/A.mp3".data, "/ipod/b.mp3".data] : List Str), cleanAbsB t = true) ∧
    ((playlistChunks true true "/ipod".data ["/ipod/A.mp3".data, "/ipod/b.mp3".data]
        [("pl".data, ["/ipod/b.mp3".data])]).head? =
      some (masterConstruct true true "/ipod".data
        ["/ipod/A.mp3".data, "/ipod/b.mp3".data]) ∧
    (masterConstruct true true "/ipod".data
        ["/ipod/A.mp3".data, "/ipod/b.mp3".data]).listtype = 1 ∧
    (masterConstruct true true "/ipod".data
        ["/ipod/A.mp3".data, "/ipod/b.mp3".data]).entries = List.range 2 ∧
    (∀ r ∈ (playlistChunks true true "/ipod".data ["/ipod/A.mp3".data, "/ipod/b.mp3".data]
        [("pl".data, ["/ipod/b.mp3".data])]).tail, r.listtype = 2) ∧
    (playlistChunks true true "/ipod".data ["/ipod/A.mp3".data, "/ipod/b.mp3".data]
        [("pl".data, ["/ipod/b.mp3".data])]).filter (fun r => r.listtype == 1) =
      [masterConstruct true true "/ipod".data
        ["/ipod/A.mp3".data, "/ipod/b.mp3".data]]) :=
  ⟨by decide, by decide,
   c7_master_playlist true true "/ipod".data ["/ipod/A.mp3".data, "/ipod/b.mp3".data]
     [("pl".data, ["/ipod/b.mp3".data])] (by decide) (by decide)⟩

/-! ### Playlist source parsing (core.py, Playlist.populate_* and populate) -/

/-- The filename cleanup of one pls entry value: percent-decode, strip, drop a
`file://` scheme, optionally unicode-sanitize. -/
def plsFilename (rename : Bool) (val : Str) : Str :=
  let f0 := pyStrip (unquote val)
  let f1 := if "file://".data.isPrefixOf (pyLower f0) then f0.drop 7 else f0
  if rename then validate_unicode f1 else f1

/-- The line loop of `Playlist.populate_pls`.  A line whose key (the part
before `=`, lowercased) starts with `file` must continue with text `int`
accepts (otherwise `int(dataarr[0][4:])` raises `ValueError`) and must contain
an `=` at all (otherwise `dataarr[1]` raises `IndexError`); both uncaught
exceptions are modelled as `Except.error`.  Lines without the `file` key are
ignored without any report. -/
def plsEntries (rename : Bool) : List Str → Except Unit (List (Int × Str))
  | [] => .ok []
  | i :: restLines =>
    if "file".data.isPrefixOf (pyLower ((pySplit1 '=' (pyStrip i)).headD [])) then
      match pyIntOfStr (((pySplit1 '=' (pyStrip i)).headD []).drop 4) with
      | none => .error ()
      | some num =>
        match pySplit1 '=' (pyStrip i) with
        | _ :: val :: _ =>
          match plsEntries rename restLines with
          | .ok rest => .ok ((num, plsFilename rename val) :: rest)
          | .error e => .error e
        | _ => .error ()
    else plsEntries rename restLines

/-- Python tuple comparison `(num, filename) <= (num2, filename2)` as the
stable-sort relation used for `sorted(sorttracks)`. -/
def plsLe (a b : Int × Str) : Bool :=
  if a.1 = b.1 then !(strLt b.2 a.2) else decide (a.1 < b.1)

/-- `Playlist.populate_pls`: parse the `FileN=` lines, sort by the embedded
sequence number, keep the paths. -/
def populate_pls (rename : Bool) (data : List Str) : Except Unit (List Str) :=
  match plsEntries rename data with
  | .ok st => .ok ((insSort plsLe st).map (fun x => x.2))
  | .error e => .error e

/-- `Playlist.populate_m3u`: a line not starting with `#` is stripped (and
optionally unicode-sanitized) and kept; nothing can fail. -/
def populate_m3u (rename : Bool) (data : List Str) : List Str :=
  data.filterMap (fun i =>
    if ("#".data).isPrefixOf i then none
    else some (if rename then validate_unicode (pyStrip i) else pyStrip i))

/-- `Playlist.remove_relatives`; `pathExists` abstracts `os.path.exists`. -/
def remove_relatives (pathExists : Str → Bool) (filename relative : Str) : Str :=
  if pathExists relative then relative
  else pyJoin (pyDirname (abspath filename)) relative

/-- A playlist source as `PlaylistHeader.construct` iterates `self.lists`:
either an auto-playlist tuple `(name, tracks)` or a playlist file, given as
its path plus the lines read from it.  (The directory branch of
`Playlist.populate` re-walks the filesystem; its result enters here through
the tuple form.) -/
inductive PlSource where
  | tup : Str → List Str → PlSource
  | fileSrc : Str → List Str → PlSource

/-- `Playlist.populate`: resolve a source to its display text and its track
path list.  An unknown extension raises, and so do malformed pls `file` lines;
the caller wraps only `construct` in try/except, so these propagate. -/
def playlistPopulate (pathExists : Str → Bool) (rename : Bool) :
    PlSource → Except Unit (Str × List Str)
  | .tup text lts => .ok (text, lts)
  | .fileSrc filename lines =>
    let extension := pyLower (splitext filename).2
    if extension = ".pls".data then
      match populate_pls rename lines with
      | .ok lt => .ok ((splitext (pyBasename filename)).1,
          lt.map (fun r => remove_relatives pathExists filename r))
      | .error e => .error e
    else if extension = ".m3u".data then
      .ok ((splitext (pyBasename filename)).1,
        (populate_m3u rename lines).map (fun r => remove_relatives pathExists filename r))
    else .error ()

/-- `PlaylistHeader.construct` driven from raw sources: every playlist is
populated first — outside the try/except, so a populate failure aborts the
whole database construction — and the populated playlists are then
constructed and filtered as in `playlistHeaderConstruct`. -/
def playlistHeaderFromSources (pathExists : Str → Bool) (rename pv tts : Bool)
    (baseOffset : Nat) (base : Str) (tracks : List Str) (sources : List PlSource) :
    Except Unit (Nat × List Nat) :=
  match sources.mapM (playlistPopulate pathExists rename) with
  | .ok pls => .ok (playlistHeaderConstruct pv tts baseOffset base tracks pls)
  | .error e => .error e

theorem length_filterMap_eq_count {α β : Type} (f : α → Option β) :
    ∀ l : List α, (l.filterMap f).length = (l.filter (fun a => (f a).isSome)).length
  | [] => rfl
  | x :: xs => by
    rw [List.filterMap_cons, List.filter_cons]
    cases hfx : f x with
    | none => simp [hfx, length_filterMap_eq_count f xs]
    | some b => simp [hfx, length_filterMap_eq_count f xs]

/-- Claim C6 counterexample: the pls line `filea=/x.mp3` is malformed (its
`file` key has no integer sequence number), and instead of being reported and
skipped it makes `int` raise inside `Playlist.populate_pls`; the exception
propagates through `Playlist.populate` — which `PlaylistHeader.construct`
calls outside its try/except — and database construction aborts. -/
theorem c6_counterexample :
    populate_pls false ["filea=/x.mp3".data] = .error () ∧
    playlistHeaderFromSources (fun _ => true) false false false 64 "/ipod".data
      ["/ipod/a.mp3".data] [.fileSrc "/ipod/bad.pls".data ["filea=/x.mp3".data]] =
      .error () :=
  ⟨by rfl, by rfl⟩

/-- Claim C6 (amended): a playlist entry whose path is not found in the track
table is recoverable — exactly the entries whose `ipod_to_path` image occurs
in the track table are kept, in order, and `number_of_songs` counts exactly
those, while construction continues as a total function; a pls line whose key
does not start with `file` is ignored without a report (for instance the
`[playlist]` section header, with the remaining well-formed entries parsed and
ordered by sequence number); but a `file`-keyed line whose sequence text is
not a valid integer raises an uncaught exception that aborts playlist
population and database construction instead of being skipped. -/
theorem c6_per_item_recovery_amended :
    (∀ (base : Str) (tracks : List Str) (text : Str) (listtracks : List Str),
      (playlistConstruct base tracks text listtracks).entries =
        listtracks.filterMap (fun i => resolveOne tracks (ipod_to_path base i)) ∧
      (playlistConstruct base tracks text listtracks).number_of_songs =
        (listtracks.filter (fun i => decide (ipod_to_path base i ∈ tracks))).length) ∧
    populate_pls false ["[playlist]".data, "File2=/b.mp3".data, "File1=/a.mp3".data] =
      .ok ["/a.mp3".data, "/b.mp3".data] ∧
    (∀ lines1 lines2 : List Str, ∀ key val : Str,
      "file".data.isPrefixOf (pyLower key) → pyIntOfStr (key.drop 4) = none →
      '=' ∉ key → (pyStrip (key ++ '=' :: val)) = key ++ '=' :: val →
      plsEntries false (lines1 ++ (key ++ '=' :: val) :: lines2) =
        (match plsEntries false lines1 with
         | .ok _ => .error ()
         | .error e => .error e)) := by
  refine ⟨?_, by rfl, ?_⟩
  · intro base tracks text listtracks
    refine ⟨rfl, ?_⟩
    show (resolveEntries base tracks listtracks).length = _
    rw [resolveEntries, length_filterMap_eq_count]
    congr 1
    apply List.filter_congr
    intro i _
    rw [resolveOne]
    by_cases h : ipod_to_path base i ∈ tracks <;> simp [h]
  · intro lines1 lines2 key val hkey hnum hnoeq hstrip
    have harr : pySplit1 '=' (key ++ '=' :: val) = [key, val] := by
      clear hstrip hkey hnum
      induction key with
      | nil => rfl
      | cons c cs ih =>
        have hc : ¬ c = '=' := fun he => hnoeq (he ▸ List.mem_cons_self c cs)
        have hcs : '=' ∉ cs := fun hm => hnoeq (List.mem_cons_of_mem c hm)
        rw [List.cons_append, pySplit1, if_neg hc, ih hcs]
    induction lines1 with
    | nil =>
      simp only [List.nil_append]
      conv_lhs => rw [plsEntries]
      rw [hstrip, harr]
      simp only [List.headD_cons, if_pos hkey, hnum]
      rfl
    | cons l ls ih =>
      simp only [List.cons_append]
      conv_lhs => rw [plsEntries]
      conv_rhs => rw [plsEntries]
      by_cases h1 :
          "file".data.isPrefixOf (pyLower ((pySplit1 '=' (pyStrip l)).headD [])) = true
      · simp only [if_pos h1]
        cases hn : pyIntOfStr (((pySplit1 '=' (pyStrip l)).headD []).drop 4) with
        | none => rfl
        | some num =>
          cases harr2 : pySplit1 '=' (pyStrip l) with
          | nil => rfl
          | cons a bs =>
            cases bs with
            | nil => rfl
            | cons v vs =>
              simp only []
              rw [ih]
              cases plsEntries false ls <;> rfl
      · simp only [if_neg h1]
        exact ih

/-! ### Track records (core.py, Track) -/

/-- Metadata as `mutagen.File(..., easy=True)` returns it, collapsed to the
fields `Track.populate` reads: each tag list is represented by its first
element (the source indexes `[0]`), and the float duration by the millisecond
value `int(audio.info.length * 1000)` the source stores. -/
structure TrackMeta where
  lengthMs : Nat
  artistTag : Option Str
  albumTag : Option Str
  titleTag : Option Str

/-- The variable fields of a `Track` record (`Track._struct`); the remaining
fields are the constants of the struct table. -/
structure TrackRecord where
  stop_at_pos_ms : Nat
  volume_gain : Nat
  filetype : Nat
  filename : Str
  albumid : Nat
  dbid : List Nat
  artistid : Nat
deriving DecidableEq

/-- The all-default track record (defaults of `Track._struct`). -/
def blankTrack : TrackRecord :=
  { stop_at_pos_ms := 0, volume_gain := 0, filetype := 1, filename := [],
    albumid := 0, dbid := List.replicate 8 0, artistid := 0 }

/-- `Track.populate`: device filename through the path codec (an `IOError`
propagates to the caller), file-type 2 for the `.m4a/.m4b/.m4p/.aa` container
family, duration and artist/album IDs from metadata when mutagen yields some
(otherwise the struct defaults stay), and the identity hash from
"title - artist" when both tags are present, else from the file stem.  Returns
the record with the updated artist and album tables. -/
def trackPopulate (trackgain : Nat) (base : Str) (artists albums : List Str)
    (meta : Option TrackMeta) (filename : Str) :
    Except Unit (TrackRecord × List Str × List Str) :=
  match path_to_ipod base filename with
  | .error e => .error e
  | .ok dev =>
    match meta with
    | none =>
      .ok ({ stop_at_pos_ms := 0, volume_gain := trackgain,
             filetype := if pyLower (splitext filename).2 ∈
               [".m4a".data, ".m4b".data, ".m4p".data, ".aa".data] then 2 else 1,
             filename := dev, albumid := 0,
             dbid := md5Trunc8 (utf8Bytes ((splitext (pyBasename filename)).1)),
             artistid := 0 }, artists, albums)
    | some m =>
      .ok ({ stop_at_pos_ms := m.lengthMs, volume_gain := trackgain,
             filetype := if pyLower (splitext filename).2 ∈
               [".m4a".data, ".m4b".data, ".m4p".data, ".aa".data] then 2 else 1,
             filename := dev,
             albumid := (assignId albums (m.albumTag.getD "Unknown".data)).1,
             dbid := md5Trunc8 (utf8Bytes
               (match m.titleTag, m.artistTag with
                | some t, some a => t ++ " - ".data ++ a
                | _, _ => (splitext (pyBasename filename)).1)),
             artistid := (assignId artists (m.artistTag.getD "Unknown".data)).1 },
           (assignId artists (m.artistTag.getD "Unknown".data)).2,
           (assignId albums (m.albumTag.getD "Unknown".data)).2)

/-- Claim C10: whenever `Track.populate` yields a record, its u32 file-type
field is 2 exactly when the file's extension, lowercased, is one of
`.m4a/.m4b/.m4p/.aa`, and it keeps the default 1 for every other extension
(in particular for all other audio extensions). -/
theorem c10_filetype (trackgain : Nat) (base : Str) (artists albums : List Str)
    (meta : Option TrackMeta) (filename : Str) :
    (trackPopulate trackgain base artists albums meta filename).map (fun r => r.1.filetype) =
      (trackPopulate trackgain base artists albums meta filename).map (fun _ =>
        if pyLower (splitext filename).2 ∈
          [".m4a".data, ".m4b".data, ".m4p".data, ".aa".data] then 2 else 1) := by
  rw [trackPopulate]
  cases path_to_ipod base filename with
  | error e => rfl
  | ok dev => cases meta <;> rfl

/-! ### Library scanner (core.py, Shuffler.populate and TrackHeader.construct) -/

/-- A filesystem subtree: one `os.listdir`-style entry, a file name or a
named directory with its entries. -/
inductive Fs where
  | file : Str → Fs
  | dir : Str → List Fs → Fs

/-- The file names of a directory listing (os.walk's `filenames`). -/
def fsFilenames (entries : List Fs) : List Str :=
  entries.filterMap (fun e => match e with | .file n => some n | .dir _ _ => none)

/-- The subdirectories of a directory listing (os.walk's `dirnames`, with
their contents). -/
def fsSubdirs (entries : List Fs) : List (Str × List Fs) :=
  entries.filterMap (fun e => match e with | .file _ => none | .dir n cs => some (n, cs))

/-- `sorted(filenames, key=lambda x: x.lower())`: stable, keyed by the
lowercased name, comparing code points. -/
def sortFilesCI (names : List Str) : List Str :=
  insSort (fun a b => !(strLt (pyLower b) (pyLower a))) names

/-- `dirnames.sort()`, lifted to the named subtrees (the comparison reads only
the names, so carrying the contents preserves the traversal order). -/
def sortDirs (subs : List (Str × List Fs)) : List (Str × List Fs) :=
  insSort (fun a b => !(strLt b.1 a.1)) subs

theorem mem_fsSubdirs (entries : List Fs) (n : Str) (cs : List Fs)
    (h : (n, cs) ∈ fsSubdirs entries) : Fs.dir n cs ∈ entries := by
  rcases List.mem_filterMap.1 h with ⟨e, he, hmatch⟩
  cases e with
  | file m => simp at hmatch
  | dir m ds =>
    simp only [Option.some.injEq, Prod.mk.injEq] at hmatch
    rw [← hmatch.1, ← hmatch.2]
    exact he

theorem mem_fsFilenames (entries : List Fs) (n : Str)
    (h : n ∈ fsFilenames entries) : Fs.file n ∈ entries := by
  rcases List.mem_filterMap.1 h with ⟨e, he, hmatch⟩
  cases e with
  | file m =>
    simp only [Option.some.injEq] at hmatch
    rw [← hmatch]
    exact he
  | dir m ds => simp at hmatch

/-- Every entry name in a subtree is a well-formed listing name. -/
def validFs : Fs → Bool
  | .file n => validNameB n
  | .dir n cs => validNameB n && (cs.attach.all fun c => validFs c.1)
termination_by t => sizeOf t
decreasing_by
  have := List.sizeOf_lt_of_mem c.2
  simp only [Fs.dir.sizeOf_spec]
  omega

/-- The per-directory body of the scan loop in `Shuffler.populate`: unless the
directory lies in the speakable subtree or below a hidden directory (`"/."` in
the path), collect the case-insensitively sorted, non-hidden file names with
an audio extension as absolute paths. -/
def scanHere (base dirpath : Str) (entries : List Fs) : List Str :=
  if isPathPrefixFn "iPod_Control/Speakable".data (get_relpath dirpath base) = true ∨
      strContains dirpath "/.".data = true then []
  else
    (sortFilesCI (fsFilenames entries)).filterMap (fun filename =>
      if (".".data).isPrefixOf filename then none
      else if pyLower (splitext filename).2 ∈ audio_ext then
        some (abspath (pyJoin dirpath filename))
      else none)

/-- The track-collecting effect of the `os.walk` loop in `Shuffler.populate`,
with `dirnames.sort()`: the current directory's audio files first, then each
subdirectory depth-first in sorted name order. -/
def scanWalk (base dirpath : Str) (entries : List Fs) : List Str :=
  scanHere base dirpath entries ++
    (sortDirs (fsSubdirs entries)).attach.flatMap
      (fun s => scanWalk base (pyJoin dirpath s.1.1) s.1.2)
termination_by sizeOf entries
decreasing_by
  have h1 : s.1 ∈ fsSubdirs entries := (mem_insSort _ s.1 _).1 s.2
  have h2 : Fs.dir s.1.1 s.1.2 ∈ entries := mem_fsSubdirs entries s.1.1 s.1.2 h1
  have := List.sizeOf_lt_of_mem h2
  simp only [Fs.dir.sizeOf_spec] at this
  omega

theorem validNameB_parts (n : Str) (hv : validNameB n = true) :
    goodPart n = true ∧ '/' ∉ n := by
  rw [validNameB, Bool.and_eq_true, decide_eq_true_iff] at hv
  exact hv

theorem cleanAbs_slash_name (n : Str) (hv : validNameB n = true) :
    cleanAbsB ('/' :: n) = true := by
  obtain ⟨hg, hns⟩ := validNameB_parts n hv
  rw [cleanAbsB, Bool.and_eq_true, beq_iff_eq]
  refine ⟨rfl, ?_⟩
  rw [pySplitChar_no_sep '/' n hns]
  simp [hg]

theorem pyJoin_clean (dirpath n : Str) (hd : cleanAbsB dirpath = true)
    (hn : validNameB n = true) : pyJoin dirpath n = dirpath ++ '/' :: n := by
  obtain ⟨hg, hns⟩ := validNameB_parts n hn
  rw [pyJoin]
  have hnh : ¬ n.head? = some '/' := by
    intro hh
    cases n with
    | nil => simp at hh
    | cons c cs =>
      rw [List.head?_cons, Option.some.injEq] at hh
      exact hns (hh ▸ List.mem_cons_self c cs)
  rw [if_neg hnh]
  have hne : ¬ (dirpath = [] ∨ dirpath.getLast? = some '/') := by
    rintro (h1 | h2)
    · rw [h1] at hd; simp [cleanAbsB] at hd
    · exact cleanAbs_getLast_ne dirpath hd h2
  rw [if_neg hne]

theorem cleanAbs_child (dirpath n : Str) (hd : cleanAbsB dirpath = true)
    (hn : validNameB n = true) : cleanAbsB (dirpath ++ '/' :: n) = true :=
  cleanAbs_append dirpath n hd (cleanAbs_slash_name n hn)

theorem validFs_file (n : Str) (h : validFs (.file n) = true) : validNameB n = true := by
  rw [validFs] at h
  exact h

theorem validFs_dir (n : Str) (cs : List Fs) (h : validFs (.dir n cs) = true) :
    validNameB n = true ∧ ∀ c ∈ cs, validFs c = true := by
  rw [validFs, Bool.and_eq_true] at h
  refine ⟨h.1, fun c hc => ?_⟩
  exact List.all_eq_true.1 h.2 ⟨c, hc⟩ (List.mem_attach cs ⟨c, hc⟩)

theorem scanWalk_paths (base dirpath : Str) (entries : List Fs)
    (hd : cleanAbsB dirpath = true) (hb : base <+: dirpath)
    (hv : (entries.all fun e => validFs e) = true) :
    ∀ p ∈ scanWalk base dirpath entries, cleanAbsB p = true ∧ base <+: p := by
  intro p hp
  rw [scanWalk] at hp
  rcases List.mem_append.1 hp with hp1 | hp2
  · rw [scanHere] at hp1
    by_cases hskip : isPathPrefixFn "iPod_Control/Speakable".data
        (get_relpath dirpath base) = true ∨ strContains dirpath "/.".data = true
    · rw [if_pos hskip] at hp1
      exact absurd hp1 (List.not_mem_nil p)
    · rw [if_neg hskip] at hp1
      rcases List.mem_filterMap.1 hp1 with ⟨filename, hfmem, hfeq⟩
      have hfn : filename ∈ fsFilenames entries :=
        (mem_insSort _ filename _).1 hfmem
      have hvn : validNameB filename = true :=
        validFs_file filename (List.all_eq_true.1 hv _ (mem_fsFilenames entries filename hfn))
      by_cases h1 : (".".data).isPrefixOf filename = true
      · rw [if_pos h1] at hfeq
        exact absurd hfeq (by simp)
      · rw [if_neg h1] at hfeq
        by_cases h2 : pyLower (splitext filename).2 ∈ audio_ext
        · rw [if_pos h2, Option.some.injEq] at hfeq
          have hjoin := pyJoin_clean dirpath filename hd hvn
          have hclean := cleanAbs_child dirpath filename hd hvn
          have hpeq : p = dirpath ++ '/' :: filename := by
            rw [← hfeq, hjoin, abspath_clean _ hclean]
          constructor
          · rw [hpeq]; exact hclean
          · rw [hpeq]; exact hb.trans ⟨'/' :: filename, rfl⟩
        · rw [if_neg h2] at hfeq
          exact absurd hfeq (by simp)
  · rcases List.mem_flatMap.1 hp2 with ⟨s, _, hps⟩
    obtain ⟨⟨n, cs⟩, hsmem⟩ := s
    have h1 : (n, cs) ∈ fsSubdirs entries := (mem_insSort _ (n, cs) _).1 hsmem
    have h2 : Fs.dir n cs ∈ entries := mem_fsSubdirs entries n cs h1
    obtain ⟨hvn, hvcs⟩ := validFs_dir n cs (List.all_eq_true.1 hv _ h2)
    have hjoin := pyJoin_clean dirpath n hd hvn
    have hclean : cleanAbsB (pyJoin dirpath n) = true := by
      rw [hjoin]; exact cleanAbs_child dirpath n hd hvn
    have hpre : base <+: pyJoin dirpath n := by
      rw [hjoin]; exact hb.trans ⟨'/' :: n, rfl⟩
    exact scanWalk_paths base (pyJoin dirpath n) cs hclean hpre
      (List.all_eq_true.2 (fun c hc => hvcs c hc)) p hps
termination_by sizeOf entries
decreasing_by
  have h1 : (n, cs) ∈ fsSubdirs entries := (mem_insSort _ (n, cs) _).1 hsmem
  have h2 : Fs.dir n cs ∈ entries := mem_fsSubdirs entries n cs h1
  have := List.sizeOf_lt_of_mem h2
  simp only [Fs.dir.sizeOf_spec] at this
  omega

/-- The track-record loop of `TrackHeader.construct`: `Track.populate` runs
for each scanned path in order, threading the shared artist/album tables; a
raised `IOError` from the path codec propagates. -/
def trackHeaderRecords (trackgain : Nat) (base : Str) (meta : Str → Option TrackMeta) :
    List Str → List Str → List Str → Except Unit (List TrackRecord)
  | [], _, _ => .ok []
  | f :: rest, artists, albums =>
    match trackPopulate trackgain base artists albums (meta f) f with
    | .error e => .error e
    | .ok (r, artists2, albums2) =>
      match trackHeaderRecords trackgain base meta rest artists2 albums2 with
      | .error e => .error e
      | .ok rs => .ok (r :: rs)

theorem trackHeaderRecords_ok (trackgain : Nat) (base : Str)
    (meta : Str → Option TrackMeta) :
    ∀ (paths artists albums : List Str),
      (∀ p ∈ paths, (path_to_ipod base p).isOk = true) →
      ∃ recs : List TrackRecord,
        trackHeaderRecords trackgain base meta paths artists albums = .ok recs ∧
        recs.length = paths.length ∧
        (∀ i : Nat, i < paths.length →
          ∃ dev : Str, path_to_ipod base (paths.getD i []) = .ok dev ∧
            (recs.getD i blankTrack).filename = dev)
  | [], artists, albums, _ => ⟨[], rfl, rfl, fun i hi => absurd hi (by simp)⟩
  | f :: rest, artists, albums, hok => by
    have hf := hok f (List.mem_cons_self f rest)
    obtain ⟨dev, hdev⟩ : ∃ dev, path_to_ipod base f = .ok dev := by
      cases he : path_to_ipod base f with
      | ok d => exact ⟨d, rfl⟩
      | error e =>
        rw [he] at hf
        simp [Except.isOk, Except.toBool] at hf
    have hpop : ∃ r a2 b2,
        trackPopulate trackgain base artists albums (meta f) f = .ok (r, a2, b2) ∧
        r.filename = dev := by
      rw [trackPopulate, hdev]
      cases meta f with
      | none => exact ⟨_, _, _, rfl, rfl⟩
      | some m => exact ⟨_, _, _, rfl, rfl⟩
    obtain ⟨r, a2, b2, hpe, hrf⟩ := hpop
    obtain ⟨recs, hrec, hlen, hcorr⟩ := trackHeaderRecords_ok trackgain base meta rest a2 b2
      (fun p hp => hok p (List.mem_cons_of_mem f hp))
    refine ⟨r :: recs, ?_, by simp [hlen], ?_⟩
    · simp only [trackHeaderRecords, hpe, hrec]
    · intro i hi
      cases i with
      | zero => exact ⟨dev, by simpa using hdev, by simpa using hrf⟩
      | succ j =>
        have := hcorr j (by simpa using hi)
        simpa using this

/-- Claim C1: for every scanned directory tree (well-formed listing names,
normalized absolute device root), `TrackHeader.construct` emits one track
record per path of the directory walk — which visits directories depth-first
in sorted order, files within each directory in case-insensitive sorted order,
and excludes hidden files, hidden-directory subtrees and the speakable subtree
(all encoded in `scanWalk`) — and the record at table index `i` is built from
exactly the `i`-th discovered path: its 256-byte filename field holds that
path's device-relative image under the path codec. -/
theorem c1_track_table_order (trackgain : Nat) (base : Str)
    (meta : Str → Option TrackMeta) (tree : List Fs) (hb : cleanAbsB base = true)
    (hv : (tree.all fun e => validFs e) = true) :
    ∃ recs : List TrackRecord,
      trackHeaderRecords trackgain base meta (scanWalk base base tree) [] [] = .ok recs ∧
      recs.length = (scanWalk base base tree).length ∧
      (∀ i : Nat, i < (scanWalk base base tree).length →
        ∃ dev : Str,
          path_to_ipod base ((scanWalk base base tree).getD i []) = .ok dev ∧
          (recs.getD i blankTrack).filename = dev) := by
  apply trackHeaderRecords_ok
  intro p hp
  obtain ⟨hc, hpre⟩ :=
    scanWalk_paths base base tree hb ⟨[], List.append_nil base⟩ hv p hp
  exact (path_to_ipod_isOk_iff base p hc).2 hpre

set_option maxRecDepth 400000 in
/-- Witness for `c1_track_table_order` on the spec's scenario: the files
`b.mp3` and `A.mp3` in the device root are discovered in case-insensitive
order — `A.mp3` first, `b.mp3` second — and the track table is built from
that order. -/
theorem c1_track_table_order_witness :
    scanWalk "/ipod".data "/ipod".data [Fs.file "b.mp3".data, Fs.file "A.mp3".data] =
      ["/ipod/A.mp3".data, "/ipod/b.mp3".data] ∧
    cleanAbsB "/ipod".data = true ∧
    (([Fs.file "b.mp3".data, Fs.file "A.mp3".data].all fun e => validFs e) = true) ∧
    (∃ recs : List TrackRecord,
      trackHeaderRecords 0 "/ipod".data (fun _ => none)
        (scanWalk "/ipod".data "/ipod".data
          [Fs.file "b.mp3".data, Fs.file "A.mp3".data]) [] [] = .ok recs ∧
      recs.length = (scanWalk "/ipod".data "/ipod".data
        [Fs.file "b.mp3".data, Fs.file "A.mp3".data]).length ∧
      (∀ i : Nat, i < (scanWalk "/ipod".data "/ipod".data
          [Fs.file "b.mp3".data, Fs.file "A.mp3".data]).length →
        ∃ dev : Str,
          path_to_ipod "/ipod".data ((scanWalk "/ipod".data "/ipod".data
            [Fs.file "b.mp3".data, Fs.file "A.mp3".data]).getD i []) = .ok dev ∧
          ((recs.getD i blankTrack).filename = dev))) :=
  ⟨by rw [scanWalk]; decide, by decide,
   by simp only [List.all_cons, List.all_nil, validFs]; decide,
   c1_track_table_order 0 "/ipod".data (fun _ => none)
     [Fs.file "b.mp3".data, Fs.file "A.mp3".data] (by decide)
     (by simp only [List.all_cons, List.all_nil, validFs]; decide)⟩

/-! ### Unicode sanitizer walk (utils.py, check_unicode) -/

/-- `utils.check_unicode` on one directory listing, threading the running
`ret_flag` through the entries in listing order: the renamed listing, the
returned flag (some recognizable media/playlist file at or below), and the
number of `os.rename` calls performed.  A recognized file whose name fails
latin-1 is renamed to its hash plus the lowercased original extension; a
directory is renamed (after its children) to the bare hash when the
accumulated flag is set and its name fails latin-1. -/
def checkUnicode : List Fs → Bool → (List Fs × Bool × Nat)
  | [], flag => ([], flag, 0)
  | .file n :: rest, flag =>
    if pyLower (splitext n).2 ∈ audio_ext ++ list_ext then
      if raises_unicode_error n = true then
        match checkUnicode rest true with
        | (t, f, k) =>
          (.file (hash_error_unicode n ++ pyLower (splitext n).2) :: t, f, k + 1)
      else
        match checkUnicode rest true with
        | (t, f, k) => (.file n :: t, f, k)
    else
      match checkUnicode rest flag with
      | (t, f, k) => (.file n :: t, f, k)
  | .dir n cs :: rest, flag =>
    match checkUnicode cs false with
    | (ct, cf, ck) =>
      if (cf || flag) = true ∧ raises_unicode_error n = true then
        match checkUnicode rest (cf || flag) with
        | (t, f, k) => (.dir (hash_error_unicode n) ct :: t, f, k + ck + 1)
      else
        match checkUnicode rest (cf || flag) with
        | (t, f, k) => (.dir n ct :: t, f, k + ck)

/-- The sixteen characters `"{0:02X}"` can produce. -/
theorem hexCharUpper_mem (k : Nat) : hexCharUpper k ∈ "0123456789ABCDEF".data := by
  rw [hexCharUpper]
  have h : k % 16 < 16 := Nat.mod_lt _ (by norm_num)
  set m := k % 16 with hm
  interval_cases m <;> decide

theorem mem_listFlat {α β : Type} (f : α → List β) :
    ∀ (l : List α) (b : β), b ∈ listFlat f l → ∃ a ∈ l, b ∈ f a
  | [], b, h => absurd h (by rw [listFlat]; exact List.not_mem_nil b)
  | x :: xs, b, h => by
    rw [listFlat] at h
    rcases List.mem_append.1 h with h1 | h1
    · exact ⟨x, List.mem_cons_self x xs, h1⟩
    · obtain ⟨a, ha, hb⟩ := mem_listFlat f xs b h1
      exact ⟨a, List.mem_cons_of_mem x ha, hb⟩

theorem hash_error_unicode_mem (s : Str) :
    ∀ c ∈ hash_error_unicode s, c ∈ "0123456789ABCDEF".data := by
  intro c hc
  rw [hash_error_unicode] at hc
  obtain ⟨a, _, hb⟩ := mem_listFlat _ _ c hc
  rw [byteHexUpper] at hb
  rcases List.mem_cons.1 hb with h2 | h2
  · exact h2 ▸ hexCharUpper_mem _
  · rw [List.mem_singleton] at h2
    exact h2 ▸ hexCharUpper_mem _

theorem hash_error_unicode_no_dot (s : Str) : '.' ∉ hash_error_unicode s := by
  intro hm
  have := hash_error_unicode_mem s '.' hm
  simp at this

theorem hash_error_unicode_no_slash (s : Str) : '/' ∉ hash_error_unicode s := by
  intro hm
  have := hash_error_unicode_mem s '/' hm
  simp at this

theorem hexUpperChars_safe : ∀ c ∈ "0123456789ABCDEF".data, ¬ 255 < c.toNat := by decide

theorem hash_error_unicode_safe (s : Str) :
    raises_unicode_error (hash_error_unicode s) = false := by
  rw [raises_unicode_error, List.any_eq_false]
  intro c hc
  simp only [decide_eq_true_eq]
  exact hexUpperChars_safe c (hash_error_unicode_mem s c hc)

theorem md5Digest_length (msg : List Nat) : (md5Digest msg).length = 16 := by
  simp [md5Digest, u32leBytes]

theorem listFlat_pair_length {α β : Type} (f : α → List β)
    (hf : ∀ a, (f a).length = 2) : ∀ l : List α, (listFlat f l).length = 2 * l.length
  | [] => rfl
  | x :: xs => by
    rw [listFlat, List.length_append, hf x, listFlat_pair_length f hf xs]
    simp [Nat.mul_succ]
    omega

theorem hash_error_unicode_ne_nil (s : Str) : hash_error_unicode s ≠ [] := by
  rw [hash_error_unicode]
  have h1 : (md5Hexdigest (utf8Bytes s)).length = 32 := by
    rw [md5Hexdigest,
      listFlat_pair_length (fun b => [hexCharLower (b / 16), hexCharLower (b % 16)])
        (fun b => rfl), md5Digest_length]
  have h2 : ((((md5Hexdigest (utf8Bytes s)).take 8)).reverse).length = 8 := by
    rw [List.length_reverse, List.length_take, h1]
    rfl
  intro hcontra
  have h3 := listFlat_pair_length (fun c : Char => byteHexUpper c.toNat)
    (fun a => rfl) (((md5Hexdigest (utf8Bytes s)).take 8).reverse)
  rw [hcontra, h2] at h3
  simp at h3

theorem lastIdxOf_not_mem (c : Char) : ∀ s : Str, c ∉ s → lastIdxOf c s = none
  | [], _ => rfl
  | x :: xs, h => by
    have hx : ¬ x = c := fun he => h (he ▸ List.mem_cons_self x xs)
    have hxs : c ∉ xs := fun hm => h (List.mem_cons_of_mem x hm)
    rw [lastIdxOf, lastIdxOf_not_mem c xs hxs, if_neg hx]

theorem lastIdxOf_append_last (c : Char) (tail : Str) (ht : c ∉ tail) :
    ∀ s : Str, c ∉ s → lastIdxOf c (s ++ c :: tail) = some s.length
  | [], _ => by
    rw [List.nil_append, lastIdxOf, lastIdxOf_not_mem c tail ht, if_pos rfl]
    rfl
  | x :: xs, h => by
    have hxs : c ∉ xs := fun hm => h (List.mem_cons_of_mem x hm)
    rw [List.cons_append, lastIdxOf, lastIdxOf_append_last c tail ht xs hxs]
    rfl

/-- `splitext` on a dot-free stem followed by a single-dot extension. -/
theorem splitext_append (h e : Str) (hne : h ≠ []) (hdot : '.' ∉ h)
    (hslash : '/' ∉ h) (etail : Str) (hee : e = '.' :: etail) (het : '.' ∉ etail)
    (hes : '/' ∉ e) : splitext (h ++ e) = (h, e) := by
  subst hee
  have hdotIdx : lastIdxOf '.' (h ++ '.' :: etail) = some h.length :=
    lastIdxOf_append_last '.' etail het h hdot
  have hsepIdx : lastIdxOf '/' (h ++ '.' :: etail) = none := by
    apply lastIdxOf_not_mem
    intro hm
    rcases List.mem_append.1 hm with h1 | h1
    · exact hslash h1
    · exact hes h1
  rw [splitext, hdotIdx, hsepIdx]
  have hlt : (-1 : Int) < (h.length : Int) := by
    have : (0 : Int) ≤ (h.length : Int) := Int.natCast_nonneg h.length
    omega
  rw [if_pos hlt]
  have htoNat : ((h.length : Int)).toNat = h.length := Int.toNat_natCast h.length
  have hmid : ¬ ((List.range (((h.length : Int)).toNat - ((-1 : Int) + 1).toNat)).map
      (fun k => (h ++ '.' :: etail).getD ((((-1 : Int)) + 1).toNat + k) '.')).all
      (fun c => decide (c = '.')) = true := by
    intro hall
    have hzero : 0 < h.length := List.length_pos.2 hne
    have h0mem : (0 : Nat) ∈ List.range (((h.length : Int)).toNat - ((-1 : Int) + 1).toNat) := by
      rw [List.mem_range, htoNat]
      show 0 < h.length - 0
      omega
    have := List.all_eq_true.1 hall _ (List.mem_map_of_mem _ h0mem)
    rw [decide_eq_true_iff] at this
    have hget : (h ++ '.' :: etail).getD ((((-1 : Int)) + 1).toNat + 0) '.' ∈ h := by
      show (h ++ '.' :: etail).getD 0 '.' ∈ h
      have hlen : 0 < (h ++ '.' :: etail).length := by
        rw [List.length_append]
        omega
      rw [List.getD_eq_getElem _ _ hlen]
      rw [List.getElem_append_left hzero]
      exact List.getElem_mem hzero
    rw [this] at hget
    exact hdot hget
  rw [if_neg hmid, htoNat]
  rw [List.take_left, List.drop_left]

theorem recognized_ext_splits (h : Str) (hne : h ≠ []) (hdot : '.' ∉ h)
    (hslash : '/' ∉ h) (e : Str) (hee : e ∈ audio_ext ++ list_ext) :
    splitext (h ++ e) = (h, e) := by
  fin_cases hee
  · exact splitext_append h _ hne hdot hslash "mp3".data rfl (by decide) (by decide)
  · exact splitext_append h _ hne hdot hslash "m4a".data rfl (by decide) (by decide)
  · exact splitext_append h _ hne hdot hslash "m4b".data rfl (by decide) (by decide)
  · exact splitext_append h _ hne hdot hslash "m4p".data rfl (by decide) (by decide)
  · exact splitext_append h _ hne hdot hslash "aa".data rfl (by decide) (by decide)
  · exact splitext_append h _ hne hdot hslash "wav".data rfl (by decide) (by decide)
  · exact splitext_append h _ hne hdot hslash "pls".data rfl (by decide) (by decide)
  · exact splitext_append h _ hne hdot hslash "m3u".data rfl (by decide) (by decide)

/-- The rename target of a recognized file keeps a recognized extension. -/
theorem renamed_file_recognized (n : Str)
    (he : pyLower (splitext n).2 ∈ audio_ext ++ list_ext) :
    pyLower (splitext (hash_error_unicode n ++ pyLower (splitext n).2)).2 ∈
      audio_ext ++ list_ext := by
  rw [recognized_ext_splits (hash_error_unicode n) (hash_error_unicode_ne_nil n)
    (hash_error_unicode_no_dot n) (hash_error_unicode_no_slash n) _ he]
  show pyLower (pyLower (splitext n).2) ∈ audio_ext ++ list_ext
  generalize hgen : pyLower (splitext n).2 = e at he ⊢
  fin_cases he <;> decide

/-- The rename target of a recognized file is latin-1 safe. -/
theorem renamed_file_safe (n : Str)
    (he : pyLower (splitext n).2 ∈ audio_ext ++ list_ext) :
    raises_unicode_error (hash_error_unicode n ++ pyLower (splitext n).2) = false := by
  rw [raises_unicode_error, List.any_eq_false]
  intro c hc
  rcases List.mem_append.1 hc with h1 | h1
  · simp only [decide_eq_true_eq]
    exact hexUpperChars_safe c (hash_error_unicode_mem n c h1)
  · generalize hgen : pyLower (splitext n).2 = e at he h1
    clear hc hgen
    revert c
    fin_cases he <;> decide

theorem checkUnicode_idem : ∀ (es : List Fs) (g : Bool),
    checkUnicode (checkUnicode es g).1 g =
      ((checkUnicode es g).1, (checkUnicode es g).2.1, 0)
  | [], g => by
    rw [checkUnicode]
    dsimp only []
    rw [checkUnicode]
  | .file n :: rest, g => by
    by_cases hrec : pyLower (splitext n).2 ∈ audio_ext ++ list_ext
    · by_cases hrz : raises_unicode_error n = true
      · have ih := checkUnicode_idem rest true
        rcases hres : checkUnicode rest true with ⟨t, f, k⟩
        rw [hres] at ih
        rw [checkUnicode, if_pos hrec, if_pos hrz, hres]
        show checkUnicode
          (.file (hash_error_unicode n ++ pyLower (splitext n).2) :: t) g =
          (.file (hash_error_unicode n ++ pyLower (splitext n).2) :: t, f, 0)
        rw [checkUnicode, if_pos (renamed_file_recognized n hrec),
          if_neg (by rw [renamed_file_safe n hrec]; exact Bool.false_ne_true), ih]
      · have ih := checkUnicode_idem rest true
        rcases hres : checkUnicode rest true with ⟨t, f, k⟩
        rw [hres] at ih
        rw [checkUnicode, if_pos hrec, if_neg hrz, hres]
        show checkUnicode (.file n :: t) g = (.file n :: t, f, 0)
        rw [checkUnicode, if_pos hrec, if_neg hrz, ih]
    · have ih := checkUnicode_idem rest g
      rcases hres : checkUnicode rest g with ⟨t, f, k⟩
      rw [hres] at ih
      rw [checkUnicode, if_neg hrec, hres]
      show checkUnicode (.file n :: t) g = (.file n :: t, f, 0)
      rw [checkUnicode, if_neg hrec, ih]
  | .dir n cs :: rest, g => by
    have ihc := checkUnicode_idem cs false
    rcases hsub : checkUnicode cs false with ⟨ct, cf, ck⟩
    rw [hsub] at ihc
    have ihr := checkUnicode_idem rest (cf || g)
    rcases hrest : checkUnicode rest (cf || g) with ⟨t, f, k⟩
    rw [hrest] at ihr
    dsimp only [] at ihc ihr
    by_cases hcond : (cf || g) = true ∧ raises_unicode_error n = true
    · have hpass1 : checkUnicode (.dir n cs :: rest) g =
          (Fs.dir (hash_error_unicode n) ct :: t, f, k + ck + 1) := by
        rw [checkUnicode, hsub]
        dsimp only []
        rw [if_pos hcond, hrest]
      rw [hpass1]
      dsimp only []
      have hcond2 : ¬ ((cf || g) = true ∧
          raises_unicode_error (hash_error_unicode n) = true) := by
        intro hq
        rw [hash_error_unicode_safe n] at hq
        exact Bool.false_ne_true hq.2
      rw [checkUnicode, ihc]
      dsimp only []
      rw [if_neg hcond2, ihr]
    · have hpass1 : checkUnicode (.dir n cs :: rest) g =
          (Fs.dir n ct :: t, f, k + ck) := by
        rw [checkUnicode, hsub]
        dsimp only []
        rw [if_neg hcond, hrest]
      rw [hpass1]
      dsimp only []
      rw [checkUnicode, ihc]
      dsimp only []
      rw [if_neg hcond, ihr]

/-- Claim C9: running `check_unicode` a second time over a tree it has
already processed changes nothing and performs zero renames — the output
listing, when processed again with the same fresh flag, is returned unchanged
with the same flag and a rename count of 0.  This is because every name the
sanitizer produces is a 16-character uppercase-hex hash (plus, for files, a
recognized lowercased extension), which lies inside the single-byte latin-1
set and therefore never triggers the encoding-violation check again. -/
theorem c9_sanitizer_idempotent :
    (∀ es : List Fs, checkUnicode (checkUnicode es false).1 false =
      ((checkUnicode es false).1, (checkUnicode es false).2.1, 0)) ∧
    (∀ s : Str, ∀ c ∈ hash_error_unicode s, c ∈ "0123456789ABCDEF".data) ∧
    (∀ s : Str, raises_unicode_error (hash_error_unicode s) = false) :=
  ⟨fun es => checkUnicode_idem es false, hash_error_unicode_mem, hash_error_unicode_safe⟩

end Shuffle4g
